import Mathlib

/-!
Verification of the decimal.js-extensions repository against its
natural-language specification.

The development shallowly embeds the two cores of the repository:

* `Serialize` — the Decimal ↔ ArrayBuffer codec (`toArrayBuffer`,
  `fromArrayBuffer`, `convert` and the run-length compression of the
  mantissa limbs), translated from the serializer source.
* `Evaluate` — the tokenizer and Pratt evaluator of arithmetic
  expressions (`Decimal.eval`), translated from `evaluate/index.js`.

JavaScript numbers holding integer values are modelled as `Nat`/`Int`;
the JavaScript values `NaN`/`undefined`/`null` that flow through the
codec are modelled with `Option`.  Byte strings (`ArrayBuffer` /
`Uint8Array`) are modelled as `List Nat`.
-/

namespace Serialize

/-! ### Constants (verbatim from the source) -/

def BASE : Nat := 10000000

def BYTES_MASK : Nat := 255

def SIX_LSB_MASK : Nat := 63

def NEG_SIGN_BIT : Nat := 128

def NEG_EXPONENT_SIGN_BIT : Nat := 64

def SMALL_INTEGER_BIT : Nat := NEG_EXPONENT_SIGN_BIT

def ALL_NINES : Nat := BASE - 1

def ALL_ZEROS : Nat := 0

def NINES_SIGNIFIER : Nat := BASE + 1

def ZEROS_SIGNIFIER : Nat := BASE

def INFINITY_BYTE : Nat := 127

def NEG_INFINITY_BYTE : Nat := 255

def NAN_BYTE : Nat := 64

def RADIX : Nat := BASE + 2

def EXPONENT_OFFSET : Nat := 7

def MAX_SMALL_EXPONENT : Nat := 30

def MAX_SMALL_INTEGER : Nat := 50

def MAX_SMALLER_INTEGER : Nat := 25

/-- `SMALL_INTEGER_OFFSET = -25 + 37` in the source. -/
def SMALL_INTEGER_OFFSET : Nat := 12

def SMALLER_INTEGER_OFFSET : Nat := 38

/-! ### The `convert` base-conversion helper

`convert(val, valBase, res, resBase, ri)` multiplies the little-endian
accumulator `res[ri..]` by `valBase`, adds `val` at position `ri` and
then propagates carries in base `resBase`, extending the array as
needed.  The carry loop is modelled by `carryAll` (carry-in threaded
through the list) together with `carryExpand` (the new high positions
created at the end of the array). -/

/-- The base-`b` little-endian digits appended for a final carry `c`
(`c = 0` appends nothing).  The `b ≤ 1` guard is never exercised: the
source calls it with `b = 256` or `b = RADIX`. -/
def carryExpand (b : Nat) (c : Nat) : List Nat :=
  if _h : c = 0 then []
  else if _h2 : b ≤ 1 then [c]
  else c % b :: carryExpand b (c / b)
termination_by c
decreasing_by
  exact Nat.div_lt_self (Nat.pos_of_ne_zero _h) (by omega)

/-- The carry loop of `convert` from the current position onwards, with
carry-in `c`: position `i` becomes `(res[i] + c) % b` and carry
`(res[i] + c) / b` flows into position `i + 1` (this matches the
source, which only rewrites `res[i]` when it exceeds `b - 1`; in that
case `x % b = x` and the carry is `0`). -/
def carryAll (b : Nat) : Nat → List Nat → List Nat
  | c, [] => carryExpand b c
  | c, x :: xs => (x + c) % b :: carryAll b ((x + c) / b) xs

/-- `convert` from the source.  `res[ri]` always exists at every call
site (a `0` is pushed at `startIndex` before the first call), so the
empty-suffix completion `[val]` is never exercised. -/
def convert (val valBase : Nat) (res : List Nat) (resBase : Nat) (ri : Nat) : List Nat :=
  let pre := res.take ri
  let suf := (res.drop ri).map (fun x => x * valBase)
  let suf2 :=
    match suf with
    | [] => [val]
    | x :: xs => (x + val) :: xs
  pre ++ carryAll resBase 0 suf2

/-! ### Run-length tokenisation of the mantissa (encode side)

The encode loop walks the limb array and substitutes every run of the
same limb value `0` or `9999999` repeating more than twice by the
corresponding signifier followed by the repeat count; all other limbs
are emitted literally.  `rleTokens` produces that token stream. -/

/-- Number of leading elements of `l` equal to `x` (the source's
`while (digits[i + repeatCount] === nextDigits) repeatCount += 1`
scan, counted relative to the tail after the first occurrence). -/
def countRun (x : Nat) : List Nat → Nat
  | [] => 0
  | y :: ys => if y = x then countRun x ys + 1 else 0

/-- Token stream fed to the base conversion: the source's
`zerosOrNinesRepeatMoreThanTwice` test is `digits[i+1] === digits[i]`
and `digits[i+2] === digits[i]`, i.e. the run starting at `i` has
length at least 3. -/
def rleTokens : List Nat → List Nat
  | [] => []
  | x :: rest =>
    let runLen := countRun x rest + 1
    if (x = ALL_ZEROS ∨ x = ALL_NINES) ∧ 3 ≤ runLen then
      (if x = ALL_ZEROS then ZEROS_SIGNIFIER else NINES_SIGNIFIER) :: runLen ::
        rleTokens (rest.drop (runLen - 1))
    else
      x :: rleTokens rest
termination_by l => l.length
decreasing_by
  · simp only [List.length_cons, List.length_drop]
    omega
  · simp only [List.length_cons]
    omega

/-- The source's cascade computing how many bytes carry the exponent
magnitude when it exceeds `MAX_SMALL_EXPONENT`. -/
def exponentByteCount (e : Nat) : Nat :=
  if e < 0x100 then 1
  else if e < 0x10000 then 2
  else if e < 0x1000000 then 3
  else if e < 0x100000000 then 4
  else if e < 0x10000000000 then 5
  else if e < 0x1000000000000 then 6
  else 7

/-- The `while (exponent) { bytes.push(exponent & BYTES_MASK); exponent =
Math.floor(exponent / 0x100); }` loop: little-endian base-256 bytes. -/
def expBytesLE (e : Nat) : List Nat :=
  if _h : e = 0 then []
  else (e &&& BYTES_MASK) :: expBytesLE (e / 0x100)
termination_by e
decreasing_by
  exact Nat.div_lt_self (Nat.pos_of_ne_zero _h) (by omega)

/-! ### The decimal view

A decimal.js value is read and written through its three own fields:
sign `s ∈ {−1, 1, NaN}`, exponent `e ∈ ℤ ∪ {NaN}` and limb array
`d` (base-`10⁷` digits, or `null` for the special values).  `none`
models the JavaScript `NaN` (for `s`, `e`) and `null` (for `d`). -/

structure DecView where
  s : Option Int
  e : Option Int
  d : Option (List Nat)
deriving DecidableEq

/-- `toArrayBuffer` from the source, producing the byte list.  The
mantissa loop is the fold of `convert` over the run-length token
stream; `startIndex = header.length` and a `0` is pushed first, exactly
as in the source.  (For a finite view the source reads `this.e` and
`this.s` as numbers; a host finite value always has an integer
exponent and sign `±1`, so the `getD` defaults are never exercised.) -/
def toArrayBuffer (x : DecView) : List Nat :=
  match x.d with
  | none =>
    match x.s with
    | none => [NAN_BYTE]
    | some sg => if sg < 0 then [NEG_INFINITY_BYTE] else [INFINITY_BYTE]
  | some digits =>
    let sign := x.s.getD 1
    let exponent := x.e.getD 0
    let firstDigits := digits.headD 0
    if digits.length = 1 ∧ firstDigits ≤ MAX_SMALL_INTEGER ∧
        exponent = (if firstDigits < 10 then (0 : Int) else 1) then
      let fb :=
        if MAX_SMALLER_INTEGER < firstDigits then
          (firstDigits + SMALL_INTEGER_OFFSET) ||| SMALL_INTEGER_BIT
        else
          firstDigits + SMALLER_INTEGER_OFFSET
      let fb := if sign < 0 then fb ||| NEG_SIGN_BIT else fb
      [fb]
    else
      let fb0 : Nat := if sign < 0 then NEG_SIGN_BIT else 0
      let fb1 := if exponent < 0 then fb0 ||| NEG_EXPONENT_SIGN_BIT else fb0
      let mag : Nat := exponent.natAbs
      let header :=
        if MAX_SMALL_EXPONENT < mag then
          (fb1 ||| exponentByteCount mag) :: expBytesLE mag
        else if mag ≠ 0 then [fb1 ||| (mag + EXPONENT_OFFSET)] else [fb1]
      (rleTokens digits).foldl
        (fun acc t => convert t RADIX acc 0x100 header.length) (header ++ [0])

/-! ### Decoding -/

/-- A JavaScript indexed read `l[i]` where `i` may have gone negative
(`undefined` is `none`). -/
def jsGet (l : List Nat) (i : Int) : Option Nat :=
  if i < 0 then none else l.get? i.toNat

/-- The loop reconstructing the exponent magnitude from
`exponentByteCount` bytes: `Σ bytes[i+1] * 0x100^i`.  A read past the
end of the buffer is `undefined`, which poisons the sum to `NaN`
(modelled by `none`), exactly as `exponent += undefined * leftShift`
does in the source. -/
def readExpLoop (bytes : List Nat) (n : Nat) : Option Int :=
  (List.range n).foldl
    (fun acc i =>
      match acc, bytes.get? (i + 1) with
      | some a, some b => some (a + (b : Int) * ((0x100 : Nat) ^ i : Nat))
      | _, _ => none)
    (some 0)

/-- One decoded limb: a number, or the JavaScript `undefined` pushed by
`digits.push(nextDigits)` after the loop index has gone negative. -/
abbrev DigitV := Option Int

/-- The materialisation loop of `fromArrayBuffer`: walk `digitsInReverse`
from the top; a signifier consumes the next digit as a repeat count and
pushes that many copies; other digits are pushed literally.  The source
loop `for (let i = digitsInReverse.length; i; )` only stops at `i = 0`
exactly — when a signifier sits at index 0 the index jumps to `-1` and
the loop never terminates, which the model captures by running out of
fuel (`none`).  An `undefined` repeat count pushes nothing
(`undefined--` is `NaN`, which is falsy). -/
def materializeFuel (dr : List Nat) : Nat → Int → List DigitV → Option (List DigitV)
  | 0, _, _ => none
  | fuel + 1, i, acc =>
    if i = 0 then some acc
    else
      let i1 := i - 1
      match jsGet dr i1 with
      | some nd =>
        if nd = ZEROS_SIGNIFIER then
          match jsGet dr (i1 - 1) with
          | some c => materializeFuel dr fuel (i1 - 1)
              (acc ++ List.replicate c (some ((ALL_ZEROS : Nat) : Int)))
          | none => materializeFuel dr fuel (i1 - 1) acc
        else if nd = NINES_SIGNIFIER then
          match jsGet dr (i1 - 1) with
          | some c => materializeFuel dr fuel (i1 - 1)
              (acc ++ List.replicate c (some ((ALL_NINES : Nat) : Int)))
          | none => materializeFuel dr fuel (i1 - 1) acc
        else
          materializeFuel dr fuel i1 (acc ++ [some (nd : Int)])
      | none => materializeFuel dr fuel i1 (acc ++ [none])

/-- Result of `fromArrayBuffer` before the exponent range check:
`nullRes` for the empty buffer, `hang` when the materialisation loop
does not terminate, otherwise the three fields of the produced view. -/
inductive RawDecode
  | nullRes
  | hang
  | raw (s : Option Int) (e : Option Int) (d : Option (List DigitV))
deriving DecidableEq

/-- `fromArrayBuffer` from the source, up to (and excluding) the final
`maxE`/`minE` range check.  The mantissa conversion folds `convert`
over the mantissa bytes from the last byte down to
`indexOfLastMantissaByte`, starting from the accumulator `[0]`. -/
def fromArrayBufferRaw (bytes : List Nat) : RawDecode :=
  match bytes with
  | [] => .nullRes
  | fb :: rest =>
    let sign : Int := if fb &&& NEG_SIGN_BIT ≠ 0 then -1 else 1
    if rest.isEmpty then
      if fb = NAN_BYTE ∨ fb = INFINITY_BYTE ∨ fb = NEG_INFINITY_BYTE then
        .raw (if fb = NAN_BYTE then none else some sign) none none
      else
        let integer : Int :=
          if fb &&& SMALL_INTEGER_BIT ≠ 0 then
            (fb &&& SIX_LSB_MASK : Nat) - (SMALL_INTEGER_OFFSET : Nat)
          else
            (fb &&& SIX_LSB_MASK : Nat) - (SMALLER_INTEGER_OFFSET : Nat)
        .raw (some sign) (some (if integer < 10 then 0 else 1)) (some [some integer])
    else
      let low6 := fb &&& SIX_LSB_MASK
      let expInfo : Option Int × Nat :=
        if EXPONENT_OFFSET < low6 then (some ((low6 : Int) - (EXPONENT_OFFSET : Nat)), 1)
        else if low6 ≠ 0 then (readExpLoop bytes low6, 1 + low6)
        else (some 0, 1)
      let e1 :=
        if fb &&& NEG_EXPONENT_SIGN_BIT ≠ 0 then expInfo.1.map (fun z => -z) else expInfo.1
      let dr := ((bytes.drop expInfo.2).reverse).foldl
        (fun acc b => convert b 0x100 acc RADIX 0) [0]
      match materializeFuel dr (dr.length + 2) (dr.length : Int) [] with
      | none => .hang
      | some ds => .raw (some sign) e1 (some ds)

/-- Final decode result (after the range check). -/
inductive DecodeResult
  | nullRes
  | hang
  | res (s : Option Int) (e : Option Int) (d : Option (List DigitV))
deriving DecidableEq

/-- `fromArrayBuffer`, including the final range check
`if (exponent > Decimal.maxE || exponent < Decimal.minE) { exponent =
NaN; digits = null; }`.  A `NaN` exponent compares false on both sides,
so it is never collapsed further; the sign field is left as computed. -/
def fromArrayBuffer (maxE minE : Int) (bytes : List Nat) : DecodeResult :=
  match fromArrayBufferRaw bytes with
  | .nullRes => .nullRes
  | .hang => .hang
  | .raw s e d =>
    let oob : Bool :=
      match e with
      | some z => decide (maxE < z) || decide (z < minE)
      | none => false
    if oob then .res s none none else .res s e d

/-- The view `v` as a `DecodeResult` (host limbs are plain numbers). -/
def toResult (v : DecView) : DecodeResult :=
  .res v.s v.e (v.d.map (fun l => l.map (fun n => some ((n : Nat) : Int))))

/-- Read a decode result back as a view so it can be re-encoded.  For
every result actually produced by decoding an encoded host value the
digits are defined and non-negative, so the `filterMap` is exact. -/
def resToView : DecodeResult → DecView
  | .res s e d => ⟨s, e, d.map (fun l => l.filterMap (fun o => o.bind Int.toNat'))⟩
  | _ => ⟨none, none, none⟩

/-! ### Arithmetic facts about `convert`

The accumulator manipulated by `convert` is a little-endian digit list;
its value is `Nat.ofDigits`.  The carry loop normalises digits and
preserves the value. -/

/-- A digit list whose most significant entry is nonzero (the canonical
shape produced by the accumulators; `[]` qualifies). -/
def lastNZ (l : List Nat) : Prop := l.getLast? ≠ some 0

theorem carryExpand_eq_digits (b : Nat) (hb : 2 ≤ b) (c : Nat) :
    carryExpand b c = Nat.digits b c := by
  induction c using Nat.strong_induction_on with
  | _ c ih =>
    rw [carryExpand]
    rcases Nat.eq_zero_or_pos c with hc | hc
    · simp [hc]
    · have hne : ¬ c = 0 := by omega
      have hble : ¬ b ≤ 1 := by omega
      rw [dif_neg hne, dif_neg hble, ih (c / b) (Nat.div_lt_self hc (by omega)),
        Nat.digits_def' (by omega : 1 < b) hc]

theorem ofDigits_carryAll (b : Nat) (hb : 2 ≤ b) :
    ∀ (l : List Nat) (c : Nat), Nat.ofDigits b (carryAll b c l) = c + Nat.ofDigits b l
  | [], c => by
    rw [carryAll, carryExpand_eq_digits b hb, Nat.ofDigits_digits]
    simp [Nat.ofDigits_nil]
  | x :: xs, c => by
    rw [carryAll, Nat.ofDigits_cons, Nat.ofDigits_cons,
      ofDigits_carryAll b hb xs ((x + c) / b)]
    have hdm := Nat.div_add_mod (x + c) b
    ring_nf
    omega

theorem mem_carryAll_lt (b : Nat) (hb : 2 ≤ b) :
    ∀ (l : List Nat) (c : Nat), ∀ x ∈ carryAll b c l, x < b
  | [], c => by
    rw [carryAll, carryExpand_eq_digits b hb]
    exact fun x hx => Nat.digits_lt_base (by omega) hx
  | y :: ys, c => by
    rw [carryAll]
    intro x hx
    rcases List.mem_cons.mp hx with h | h
    · subst h; exact Nat.mod_lt _ (by omega)
    · exact mem_carryAll_lt b hb ys ((y + c) / b) x h

theorem lastNZ_digits (b : Nat) (hb : 2 ≤ b) (c : Nat) : lastNZ (Nat.digits b c) := by
  rcases Nat.eq_zero_or_pos c with hc | hc
  · subst hc; simp [lastNZ]
  · have hne : Nat.digits b c ≠ [] := Nat.digits_ne_nil_iff_ne_zero.mpr (by omega)
    rw [lastNZ, List.getLast?_eq_getLast _ hne]
    intro h
    exact Nat.getLast_digit_ne_zero b (by omega : c ≠ 0) (Option.some.inj h)

theorem carryAll_ne_nil (b c : Nat) (x : Nat) (xs : List Nat) :
    carryAll b c (x :: xs) ≠ [] := by
  rw [carryAll]; simp

theorem lastNZ_carryAll (b : Nat) (hb : 2 ≤ b) :
    ∀ (l : List Nat) (c : Nat), l ≠ [] → lastNZ l → lastNZ (carryAll b c l)
  | [], _, h, _ => absurd rfl h
  | [x], c, _, hnz => by
    rw [carryAll, carryAll, carryExpand_eq_digits b hb]
    have hx : x ≠ 0 := by
      simpa [lastNZ] using hnz
    rcases Nat.eq_zero_or_pos ((x + c) / b) with hq | hq
    · rw [hq]
      simp only [Nat.digits_zero, lastNZ, List.getLast?_singleton]
      have : x + c < b := by
        by_contra hge
        have := Nat.div_pos (by omega : b ≤ x + c) (by omega)
        omega
      rw [Nat.mod_eq_of_lt this]
      simp
      omega
    · have hne : Nat.digits b ((x + c) / b) ≠ [] := Nat.digits_ne_nil_iff_ne_zero.mpr (by omega)
      obtain ⟨d, ds, hd⟩ := List.exists_cons_of_ne_nil hne
      have := lastNZ_digits b hb ((x + c) / b)
      rw [lastNZ] at this ⊢
      rw [hd] at this ⊢
      rwa [List.getLast?_cons_cons]
  | x :: y :: ys, c, _, hnz => by
    rw [carryAll]
    have hnz' : lastNZ (y :: ys) := by
      rw [lastNZ] at hnz ⊢
      rwa [List.getLast?_cons_cons] at hnz
    have hrec := lastNZ_carryAll b hb (y :: ys) ((x + c) / b) (by simp) hnz'
    obtain ⟨d, ds, hd⟩ := List.exists_cons_of_ne_nil (carryAll_ne_nil b ((x + c) / b) y ys)
    rw [lastNZ] at hrec ⊢
    rw [hd] at hrec ⊢
    rwa [List.getLast?_cons_cons]

theorem ofDigits_map_mul (b vb : Nat) :
    ∀ l : List Nat, Nat.ofDigits b (l.map (fun x => x * vb)) = vb * Nat.ofDigits b l
  | [] => by simp [Nat.ofDigits_nil]
  | x :: xs => by
    rw [List.map_cons, Nat.ofDigits_cons, Nat.ofDigits_cons, ofDigits_map_mul b vb xs]
    ring

/-- Value of `convert` at `ri = 0`: multiply-accumulate. -/
theorem ofDigits_convert (b : Nat) (hb : 2 ≤ b) (v vb : Nat) (l : List Nat) :
    Nat.ofDigits b (convert v vb l b 0) = Nat.ofDigits b l * vb + v := by
  rw [convert]
  simp only [List.take_zero, List.drop_zero, List.nil_append]
  match hml : l.map (fun x => x * vb) with
  | [] =>
    have : l = [] := by
      cases l with
      | nil => rfl
      | cons a as => simp at hml
    subst this
    rw [ofDigits_carryAll b hb]
    simp [Nat.ofDigits_nil, Nat.ofDigits_cons]
  | y :: ys =>
    rw [ofDigits_carryAll b hb, Nat.ofDigits_cons]
    have : Nat.ofDigits b (y :: ys) = vb * Nat.ofDigits b l := by
      rw [← hml, ofDigits_map_mul]
    rw [Nat.ofDigits_cons] at this
    have hcomm : Nat.ofDigits b l * vb = vb * Nat.ofDigits b l := Nat.mul_comm _ _
    omega

theorem mem_convert_lt (b : Nat) (hb : 2 ≤ b) (v vb : Nat) (l : List Nat) :
    ∀ x ∈ convert v vb l b 0, x < b := by
  rw [convert]
  simp only [List.take_zero, List.drop_zero, List.nil_append]
  match l.map (fun x => x * vb) with
  | [] => exact mem_carryAll_lt b hb [v] 0
  | y :: ys => exact mem_carryAll_lt b hb ((y + v) :: ys) 0

theorem convert_ne_nil (v vb : Nat) (l : List Nat) (b : Nat) :
    convert v vb l b 0 ≠ [] := by
  rw [convert]
  simp only [List.take_zero, List.drop_zero, List.nil_append]
  match l.map (fun x => x * vb) with
  | [] => exact carryAll_ne_nil b 0 v []
  | y :: ys => exact carryAll_ne_nil b 0 (y + v) ys

theorem lastNZ_convert (b : Nat) (hb : 2 ≤ b) (v vb : Nat) (hvb : 1 ≤ vb)
    (l : List Nat) (hl : l ≠ []) (hnz : lastNZ l) :
    lastNZ (convert v vb l b 0) := by
  rw [convert]
  simp only [List.take_zero, List.drop_zero, List.nil_append]
  match hml : l.map (fun x => x * vb) with
  | [] =>
    exact absurd (List.map_eq_nil.mp hml) hl
  | y :: ys =>
    apply lastNZ_carryAll b hb _ 0 (by simp)
    have hmnz : lastNZ (l.map (fun x => x * vb)) := by
      rw [lastNZ, List.getLast?_map]
      rw [lastNZ] at hnz
      intro hcon
      rcases Option.map_eq_some'.mp hcon with ⟨a, ha, hav⟩
      have : a ≠ 0 := fun h0 => hnz (h0 ▸ ha)
      have : a * vb ≠ 0 := by positivity
      omega
    rw [hml] at hmnz
    cases ys with
    | nil =>
      rw [lastNZ, List.getLast?_singleton] at hmnz ⊢
      simp at hmnz ⊢
      omega
    | cons z zs =>
      rw [lastNZ, List.getLast?_cons_cons] at hmnz ⊢
      exact hmnz

/-- `convert` with `ri = pre.length` leaves the prefix alone and acts on
the suffix alone. -/
theorem convert_append (v vb b : Nat) (pre suf : List Nat) :
    convert v vb (pre ++ suf) b pre.length = pre ++ convert v vb suf b 0 := by
  rw [convert, convert]
  simp only [List.take_left, List.drop_left, List.take_zero, List.drop_zero, List.nil_append,
    List.append_assoc]

theorem foldl_convert_append (vb b : Nat) (pre : List Nat) :
    ∀ (ts : List Nat) (acc : List Nat),
      ts.foldl (fun a t => convert t vb a b pre.length) (pre ++ acc)
        = pre ++ ts.foldl (fun a t => convert t vb a b 0) acc
  | [], acc => by simp
  | t :: ts, acc => by
    rw [List.foldl_cons, List.foldl_cons, convert_append]
    exact foldl_convert_append vb b pre ts _

/-- The invariant carried through the mantissa folds: the accumulator
stays nonempty and canonical and its value follows the Horner scheme
`n ↦ n * vb + t`. -/
theorem foldl_convert_inv (b vb : Nat) (hb : 2 ≤ b) (hvb : 1 ≤ vb) :
    ∀ (ts : List Nat) (acc : List Nat), acc ≠ [] → lastNZ acc → (∀ x ∈ acc, x < b) →
      (ts.foldl (fun a t => convert t vb a b 0) acc ≠ [] ∧
       lastNZ (ts.foldl (fun a t => convert t vb a b 0) acc) ∧
       (∀ x ∈ ts.foldl (fun a t => convert t vb a b 0) acc, x < b) ∧
       Nat.ofDigits b (ts.foldl (fun a t => convert t vb a b 0) acc)
         = ts.foldl (fun n t => n * vb + t) (Nat.ofDigits b acc))
  | [], acc => fun h1 h2 h3 => ⟨h1, h2, h3, rfl⟩
  | t :: ts, acc => by
    intro h1 h2 h3
    rw [List.foldl_cons, List.foldl_cons]
    have step := foldl_convert_inv b vb hb hvb ts (convert t vb acc b 0)
      (convert_ne_nil t vb acc b) (lastNZ_convert b hb t vb hvb acc h1 h2)
      (mem_convert_lt b hb t vb acc)
    refine ⟨step.1, step.2.1, step.2.2.1, ?_⟩
    rw [step.2.2.2, ofDigits_convert b hb]

/-! ### Run-length tokens: structure and inversion -/

theorem countRun_le_length (x : Nat) : ∀ l : List Nat, countRun x l ≤ l.length
  | [] => Nat.le_refl _
  | y :: ys => by
    by_cases h : y = x
    · simp only [countRun, if_pos h, List.length_cons]
      have := countRun_le_length x ys
      omega
    · simp only [countRun, if_neg h, List.length_cons]
      omega

theorem replicate_countRun_append (x : Nat) :
    ∀ l : List Nat, List.replicate (countRun x l) x ++ l.drop (countRun x l) = l
  | [] => rfl
  | y :: ys => by
    by_cases h : y = x
    · have hcr : countRun x (y :: ys) = countRun x ys + 1 := by simp [countRun, h]
      rw [hcr, List.replicate_succ]
      simp only [List.cons_append, List.drop_succ_cons]
      rw [replicate_countRun_append x ys, h]
    · have hcr : countRun x (y :: ys) = 0 := by simp [countRun, h]
      rw [hcr]
      simp

/-- The inverse of run-length tokenisation, mirroring how the decode
loop materialises the digit list from the token stream (a signifier
consumes the following token as a repeat count).  A dangling signifier
at the end of the stream produces nothing — the decode loop does not
terminate in that situation, which is treated separately. -/
def unrle : List Nat → List Nat
  | [] => []
  | [t] => if t = ZEROS_SIGNIFIER ∨ t = NINES_SIGNIFIER then [] else [t]
  | t :: c :: rest =>
    if t = ZEROS_SIGNIFIER then List.replicate c ALL_ZEROS ++ unrle rest
    else if t = NINES_SIGNIFIER then List.replicate c ALL_NINES ++ unrle rest
    else t :: unrle (c :: rest)

theorem unrle_sig_cons (t c : Nat) (rest : List Nat)
    (h : t = ZEROS_SIGNIFIER ∨ t = NINES_SIGNIFIER) :
    unrle (t :: c :: rest)
      = List.replicate c (if t = ZEROS_SIGNIFIER then ALL_ZEROS else ALL_NINES) ++ unrle rest := by
  rcases h with h | h
  · subst h
    simp [unrle]
  · subst h
    have : ¬ (NINES_SIGNIFIER = ZEROS_SIGNIFIER) := by decide
    simp [unrle, this]

theorem unrle_lit (t : Nat) (rest : List Nat)
    (hz : ¬ t = ZEROS_SIGNIFIER) (hn : ¬ t = NINES_SIGNIFIER) :
    unrle (t :: rest) = t :: unrle rest := by
  cases rest with
  | nil => simp [unrle, hz, hn]
  | cons c rest2 => simp [unrle, hz, hn]

theorem unrle_rleTokens :
    ∀ ds : List Nat, (∀ x ∈ ds, x < BASE) → unrle (rleTokens ds) = ds
  | [] => by
    intro _
    rw [rleTokens]
    rfl
  | x :: rest => by
    intro hlt
    have hx : x < BASE := hlt x (by simp)
    rw [rleTokens]
    by_cases hc : (x = ALL_ZEROS ∨ x = ALL_NINES) ∧ 3 ≤ countRun x rest + 1
    · rw [if_pos hc]
      have hdroplt : ∀ y ∈ rest.drop (countRun x rest + 1 - 1), y < BASE := by
        intro y hy
        exact hlt y (List.mem_cons_of_mem x (List.drop_subset _ rest hy))
      have ih := unrle_rleTokens (rest.drop (countRun x rest + 1 - 1)) hdroplt
      simp only [Nat.add_sub_cancel] at ih ⊢
      rcases hc.1 with hz | hn
      · subst hz
        rw [if_pos rfl, unrle_sig_cons _ _ _ (Or.inl rfl), if_pos rfl, ih,
          List.replicate_succ, List.cons_append,
          replicate_countRun_append ALL_ZEROS rest]
      · subst hn
        have hne : ¬ (ALL_NINES = ALL_ZEROS) := by decide
        have h1 : ¬ (NINES_SIGNIFIER = ZEROS_SIGNIFIER) := by decide
        rw [if_neg hne, unrle_sig_cons _ _ _ (Or.inr rfl), if_neg h1, ih,
          List.replicate_succ, List.cons_append,
          replicate_countRun_append ALL_NINES rest]
    · rw [if_neg hc]
      have hxz : ¬ (x = ZEROS_SIGNIFIER) := by
        rw [ZEROS_SIGNIFIER]
        omega
      have hxn : ¬ (x = NINES_SIGNIFIER) := by
        rw [NINES_SIGNIFIER]
        omega
      rw [unrle_lit x _ hxz hxn,
        unrle_rleTokens rest (fun y hy => hlt y (List.mem_cons_of_mem x hy))]
termination_by ds => ds.length
decreasing_by
  · simp only [List.length_cons, List.length_drop]
    omega
  · simp only [List.length_cons]
    omega

/-- Every maximal run of all-zero / all-nine limbs in `ds` is shorter
than `RADIX` limbs (so its repeat count fits in one base-`RADIX`
digit).  Stated on the suffixes that the encode loop actually scans. -/
def runsBounded (ds : List Nat) : Prop :=
  ∀ x rest, (x = ALL_ZEROS ∨ x = ALL_NINES) → (x :: rest) <:+ ds →
    countRun x rest + 1 < RADIX

theorem runsBounded_of_short (ds : List Nat) (h : ds.length < RADIX) : runsBounded ds := by
  intro x rest _ hsuf
  have h1 := hsuf.length_le
  have h2 := countRun_le_length x rest
  simp only [List.length_cons] at h1
  omega

/-- Shape of a token stream produced by the encoder: literals are real
limbs (below both signifiers), and each signifier is followed by a
count below `RADIX`. -/
inductive WFStream : List Nat → Prop
  | nil : WFStream []
  | lit : ∀ t rest, t < BASE → WFStream rest → WFStream (t :: rest)
  | sig : ∀ s c rest, (s = ZEROS_SIGNIFIER ∨ s = NINES_SIGNIFIER) → c < RADIX →
      WFStream rest → WFStream (s :: c :: rest)

theorem wfStream_rleTokens :
    ∀ ds : List Nat, (∀ x ∈ ds, x < BASE) → runsBounded ds → WFStream (rleTokens ds)
  | [] => by
    intro _ _
    rw [rleTokens]
    exact WFStream.nil
  | x :: rest => by
    intro hlt hrb
    have hx : x < BASE := hlt x (by simp)
    rw [rleTokens]
    by_cases hc : (x = ALL_ZEROS ∨ x = ALL_NINES) ∧ 3 ≤ countRun x rest + 1
    · rw [if_pos hc]
      have hdrop : (rest.drop (countRun x rest + 1 - 1)) <:+ (x :: rest) := by
        simp only [Nat.add_sub_cancel]
        exact (List.drop_suffix _ rest).trans (List.suffix_cons x rest)
      have hsubwf : WFStream (rleTokens (rest.drop (countRun x rest + 1 - 1))) :=
        wfStream_rleTokens _
          (fun y hy => hlt y (List.mem_cons_of_mem x (List.drop_subset _ rest hy)))
          (fun y r hy hs => hrb y r hy (hs.trans hdrop))
      refine WFStream.sig _ _ _ ?_ (hrb x rest hc.1 (List.suffix_refl _)) hsubwf
      rcases hc.1 with h | h
      · rw [h, if_pos rfl]
        exact Or.inl rfl
      · rw [h, if_neg (by decide)]
        exact Or.inr rfl
    · rw [if_neg hc]
      exact WFStream.lit x _ hx
        (wfStream_rleTokens rest (fun y hy => hlt y (List.mem_cons_of_mem x hy))
          (fun y r hy hs => hrb y r hy (hs.trans (List.suffix_cons x rest))))
termination_by ds => ds.length
decreasing_by
  · simp only [List.length_cons, List.length_drop]
    omega
  · simp only [List.length_cons]
    omega

theorem wfStream_mem_lt (ts : List Nat) (h : WFStream ts) : ∀ t ∈ ts, t < RADIX := by
  induction h with
  | nil => intro t ht; simp at ht
  | lit t rest hlt _ ih =>
    intro u hu
    rcases List.mem_cons.mp hu with h | h
    · subst h; rw [RADIX]; omega
    · exact ih u h
  | sig s c rest hs hc _ ih =>
    intro u hu
    rcases List.mem_cons.mp hu with h | h
    · subst h
      rcases hs with h' | h' <;> subst h' <;> simp [ZEROS_SIGNIFIER, NINES_SIGNIFIER, RADIX, BASE]
    · rcases List.mem_cons.mp h with h'' | h''
      · subst h''; exact hc
      · exact ih u h''

/-! ### Behaviour of the materialisation loop -/

theorem jsGet_nat (dr : List Nat) (k : Nat) : jsGet dr (k : Int) = dr.get? k := by
  rw [jsGet, if_neg (by omega), Int.toNat_natCast]

/-! Step lemmas unfolding one iteration of the materialisation loop. -/

theorem matStep_none (dr : List Nat) (f : Nat) (i : Int) (acc : List DigitV)
    (hi : ¬ i = 0) (hread : jsGet dr (i - 1) = none) :
    materializeFuel dr (f + 1) i acc = materializeFuel dr f (i - 1) (acc ++ [none]) := by
  rw [materializeFuel, if_neg hi]
  simp only [hread]

theorem matStep_lit (dr : List Nat) (f : Nat) (i : Int) (acc : List DigitV) (nd : Nat)
    (hi : ¬ i = 0) (hread : jsGet dr (i - 1) = some nd)
    (hz : ¬ nd = ZEROS_SIGNIFIER) (hn : ¬ nd = NINES_SIGNIFIER) :
    materializeFuel dr (f + 1) i acc
      = materializeFuel dr f (i - 1) (acc ++ [some (nd : Int)]) := by
  rw [materializeFuel, if_neg hi]
  simp only [hread, if_neg hz, if_neg hn]

theorem matStep_sig (dr : List Nat) (f : Nat) (i : Int) (acc : List DigitV) (nd c : Nat)
    (hi : ¬ i = 0) (hread : jsGet dr (i - 1) = some nd)
    (hsig : nd = ZEROS_SIGNIFIER ∨ nd = NINES_SIGNIFIER)
    (hreadc : jsGet dr (i - 1 - 1) = some c) :
    materializeFuel dr (f + 1) i acc
      = materializeFuel dr f (i - 1 - 1)
          (acc ++ List.replicate c
            (some ((if nd = ZEROS_SIGNIFIER then (ALL_ZEROS : Nat) else ALL_NINES) : Int))) := by
  rw [materializeFuel, if_neg hi]
  rcases hsig with h | h
  · subst h
    simp [hread, hreadc]
  · subst h
    have hne : ¬ (NINES_SIGNIFIER = ZEROS_SIGNIFIER) := by decide
    simp [hread, hreadc, hne]

theorem matStep_sigNone (dr : List Nat) (f : Nat) (i : Int) (acc : List DigitV) (nd : Nat)
    (hi : ¬ i = 0) (hread : jsGet dr (i - 1) = some nd)
    (hsig : nd = ZEROS_SIGNIFIER ∨ nd = NINES_SIGNIFIER)
    (hreadc : jsGet dr (i - 1 - 1) = none) :
    materializeFuel dr (f + 1) i acc = materializeFuel dr f (i - 1 - 1) acc := by
  rw [materializeFuel, if_neg hi]
  rcases hsig with h | h
  · subst h
    simp [hread, hreadc]
  · subst h
    have hne : ¬ (NINES_SIGNIFIER = ZEROS_SIGNIFIER) := by decide
    simp [hread, hreadc, hne]

/-- Once the loop index has gone negative it can never hit `0` again,
so the loop never terminates (every fuel bound is exhausted). -/
theorem materializeFuel_neg (dr : List Nat) :
    ∀ (f : Nat) (i : Int) (acc : List DigitV), i < 0 → materializeFuel dr f i acc = none := by
  intro f
  induction f with
  | zero => intro i acc _; rfl
  | succ f ih =>
    intro i acc hi
    rw [matStep_none dr f i acc (by omega) (by rw [jsGet, if_pos (by omega)])]
    exact ih (i - 1) _ (by omega)

/-- Running the materialisation loop over a well-formed token stream
lying (reversed) at the bottom of `dr` consumes exactly the stream and
appends its expansion to the accumulator. -/
theorem materialize_run (dr : List Nat) :
    ∀ ts : List Nat, WFStream ts → ∀ (f : Nat) (acc : List DigitV),
      ts.reverse <+: dr → ts.length < f →
      materializeFuel dr f (ts.length : Int) acc
        = some (acc ++ (unrle ts).map (fun n => some ((n : Nat) : Int))) := by
  intro ts hwf
  induction hwf with
  | nil =>
    intro f acc _ hf
    obtain ⟨f', rfl⟩ : ∃ f', f = f' + 1 := ⟨f - 1, by omega⟩
    rw [materializeFuel]
    simp [unrle]
  | lit t rest hlt _ ih =>
    intro f acc hpre hf
    obtain ⟨f', rfl⟩ : ∃ f', f = f' + 1 := ⟨f - 1, by omega⟩
    obtain ⟨ext, hext⟩ := hpre
    rw [List.reverse_cons] at hext
    have hi1 : ((t :: rest).length : Int) - 1 = ((rest.length : Nat) : Int) := by
      simp only [List.length_cons]
      push_cast
      ring
    have hread : jsGet dr (((t :: rest).length : Int) - 1) = some t := by
      rw [hi1, jsGet_nat, ← hext, List.append_assoc]
      rw [List.get?_append_right (by simp)]
      simp
    have hz : ¬ (t = ZEROS_SIGNIFIER) := by
      simp only [ZEROS_SIGNIFIER, BASE] at *
      omega
    have hn : ¬ (t = NINES_SIGNIFIER) := by
      simp only [NINES_SIGNIFIER, BASE] at *
      omega
    rw [matStep_lit dr f' _ acc t (by simp only [List.length_cons]; omega) hread hz hn, hi1]
    have hpre' : rest.reverse <+: dr := ⟨[t] ++ ext, by rw [← hext]; simp⟩
    rw [ih f' (acc ++ [some (t : Int)]) hpre' (by simp only [List.length_cons] at hf; omega)]
    rw [unrle_lit t rest hz hn]
    simp
  | sig s c rest hs hc _ ih =>
    intro f acc hpre hf
    obtain ⟨f', rfl⟩ : ∃ f', f = f' + 1 := ⟨f - 1, by omega⟩
    obtain ⟨ext, hext⟩ := hpre
    rw [List.reverse_cons, List.reverse_cons] at hext
    have hi1 : ((s :: c :: rest).length : Int) - 1 = ((rest.length + 1 : Nat) : Int) := by
      simp only [List.length_cons]
      push_cast
      ring
    have hi2 : ((s :: c :: rest).length : Int) - 1 - 1 = ((rest.length : Nat) : Int) := by
      simp only [List.length_cons]
      push_cast
      ring
    have hread : jsGet dr (((s :: c :: rest).length : Int) - 1) = some s := by
      rw [hi1, jsGet_nat, ← hext, List.append_assoc]
      rw [List.get?_append_right (by simp)]
      simp
    have hreadc : jsGet dr (((s :: c :: rest).length : Int) - 1 - 1) = some c := by
      rw [hi2, jsGet_nat, ← hext]
      rw [List.append_assoc, List.append_assoc]
      rw [List.get?_append_right (by simp)]
      simp
    rw [matStep_sig dr f' _ acc s c (by simp only [List.length_cons]; omega) hread hs hreadc,
      hi2]
    have hpre' : rest.reverse <+: dr := ⟨[c] ++ ([s] ++ ext), by rw [← hext]; simp⟩
    have hflt : rest.length < f' := by simp only [List.length_cons] at hf; omega
    rw [ih f' _ hpre' hflt, unrle_sig_cons _ _ _ hs]
    rcases hs with h | h
    · subst h
      simp [List.map_replicate]
    · subst h
      have hnz : ¬ (NINES_SIGNIFIER = ZEROS_SIGNIFIER) := by decide
      simp [List.map_replicate, hnz]

/-- The full materialisation of a well-formed token stream. -/
theorem materialize_tokens (ts : List Nat) (h : WFStream ts) (pad : Nat) :
    materializeFuel ts.reverse (ts.length + 1 + pad) ((ts.length : Nat) : Int) []
      = some ((unrle ts).map (fun n => some ((n : Nat) : Int))) := by
  have := materialize_run ts.reverse ts h (ts.length + 1 + pad) []
    (List.prefix_refl _) (by omega)
  simpa using this

/-! ### Exponent bytes -/

theorem expBytesLE_eq_digits (e : Nat) : expBytesLE e = Nat.digits 256 e := by
  induction e using Nat.strong_induction_on with
  | _ e ih =>
    rw [expBytesLE]
    rcases Nat.eq_zero_or_pos e with he | he
    · simp [he]
    · have hne : ¬ e = 0 := by omega
      rw [dif_neg hne, ih (e / 0x100) (Nat.div_lt_self he (by norm_num)),
        Nat.digits_def' (by norm_num : 1 < 256) he]
      have hmask : e &&& BYTES_MASK = e % 256 := by
        have := Nat.and_pow_two_sub_one_eq_mod e 8
        norm_num at this
        simpa [BYTES_MASK] using this
      rw [hmask]

theorem exponentByteCount_eq_len (e : Nat) (h0 : 0 < e) (h7 : e < 256 ^ 7) :
    exponentByteCount e = (Nat.digits 256 e).length := by
  rw [Nat.digits_len 256 e (by norm_num) (by omega)]
  rw [exponentByteCount]
  split_ifs with h1 h2 h3 h4 h5 h6
  · have hlog : Nat.log 256 e = 0 :=
      Nat.log_eq_of_pow_le_of_lt_pow (by simpa using h0) (by norm_num; omega)
    omega
  · have hlog : Nat.log 256 e = 1 :=
      Nat.log_eq_of_pow_le_of_lt_pow (by norm_num; omega) (by norm_num; omega)
    omega
  · have hlog : Nat.log 256 e = 2 :=
      Nat.log_eq_of_pow_le_of_lt_pow (by norm_num; omega) (by norm_num; omega)
    omega
  · have hlog : Nat.log 256 e = 3 :=
      Nat.log_eq_of_pow_le_of_lt_pow (by norm_num; omega) (by norm_num; omega)
    omega
  · have hlog : Nat.log 256 e = 4 :=
      Nat.log_eq_of_pow_le_of_lt_pow (by norm_num; omega) (by norm_num; omega)
    omega
  · have hlog : Nat.log 256 e = 5 :=
      Nat.log_eq_of_pow_le_of_lt_pow (by norm_num; omega) (by norm_num; omega)
    omega
  · have hlog : Nat.log 256 e = 6 :=
      Nat.log_eq_of_pow_le_of_lt_pow (by norm_num; omega) (by norm_num at h7 ⊢; omega)
    omega

/-- The exponent-reading loop over bytes `fb :: eb ++ tail` with count
`eb.length` reconstructs the value of the little-endian digits `eb`. -/
theorem readExpLoop_spec (fb : Nat) (eb : List Nat) :
    ∀ tail : List Nat,
      readExpLoop (fb :: (eb ++ tail)) eb.length = some ((Nat.ofDigits 256 eb : Nat) : Int) := by
  induction eb using List.reverseRecOn with
  | nil =>
    intro tail
    simp [readExpLoop, Nat.ofDigits_nil]
  | append_singleton eb' d ih =>
    intro tail
    rw [readExpLoop]
    have hlen : (eb' ++ [d]).length = eb'.length + 1 := by simp
    rw [hlen, List.range_succ, List.foldl_append]
    have hprev := ih ([d] ++ tail)
    rw [readExpLoop] at hprev
    rw [List.append_assoc] at *
    rw [hprev]
    have hget : (fb :: (eb' ++ ([d] ++ tail))).get? (eb'.length + 1) = some d := by
      have : (fb :: (eb' ++ ([d] ++ tail))).get? (eb'.length + 1)
          = (eb' ++ ([d] ++ tail)).get? eb'.length := rfl
      rw [this, List.get?_append_right (Nat.le_refl _)]
      simp
    simp only [List.foldl_cons, List.foldl_nil, hget]
    rw [Nat.ofDigits_append]
    have : Nat.ofDigits 256 [d] = d := by
      simp [Nat.ofDigits_cons, Nat.ofDigits_nil]
    rw [this]
    push_cast
    ring_nf

/-! ### Horner values -/

theorem foldl_horner_reverse (b : Nat) :
    ∀ l : List Nat, l.reverse.foldl (fun n d => n * b + d) 0 = Nat.ofDigits b l := by
  have key : ∀ l : List Nat, ∀ a : Nat,
      l.reverse.foldl (fun n d => n * b + d) a = a * b ^ l.length + Nat.ofDigits b l := by
    intro l
    induction l with
    | nil => intro a; simp [Nat.ofDigits_nil]
    | cons x xs ih =>
      intro a
      rw [List.reverse_cons, List.foldl_append]
      simp only [List.foldl_cons, List.foldl_nil]
      rw [ih a, Nat.ofDigits_cons]
      simp only [List.length_cons]
      ring
  intro l
  rw [key l 0]
  simp

/-- First step of the mantissa folds: the accumulator `[0]` turns into
the canonical representation of the first token. -/
theorem convert_zero_start (b vb : Nat) (t : Nat) :
    convert t vb [0] b 0 = carryAll b 0 [t] := by
  rw [convert]
  simp

/-- Folding `convert` over a token list whose first token is nonzero
produces the canonical base-`b` little-endian digits of the Horner
value of the tokens (with multiplier `vb`). -/
theorem foldl_convert_from_zero (b vb : Nat) (hb : 2 ≤ b) (hvb : 1 ≤ vb)
    (t0 : Nat) (h0 : t0 ≠ 0) (ts : List Nat) :
    ((t0 :: ts).foldl (fun a t => convert t vb a b 0) [0] ≠ [] ∧
     lastNZ ((t0 :: ts).foldl (fun a t => convert t vb a b 0) [0]) ∧
     (∀ x ∈ (t0 :: ts).foldl (fun a t => convert t vb a b 0) [0], x < b) ∧
     Nat.ofDigits b ((t0 :: ts).foldl (fun a t => convert t vb a b 0) [0])
       = (t0 :: ts).foldl (fun n t => n * vb + t) 0) := by
  rw [List.foldl_cons, List.foldl_cons, convert_zero_start]
  have hacc_ne : carryAll b 0 [t0] ≠ [] := carryAll_ne_nil b 0 t0 []
  have hacc_nz : lastNZ (carryAll b 0 [t0]) := by
    apply lastNZ_carryAll b hb [t0] 0 (by simp)
    rw [lastNZ, List.getLast?_singleton]
    simpa using h0
  have hacc_lt : ∀ x ∈ carryAll b 0 [t0], x < b := mem_carryAll_lt b hb [t0] 0
  have hacc_val : Nat.ofDigits b (carryAll b 0 [t0]) = t0 := by
    rw [ofDigits_carryAll b hb]
    simp [Nat.ofDigits_cons, Nat.ofDigits_nil]
  have main := foldl_convert_inv b vb hb hvb ts (carryAll b 0 [t0]) hacc_ne hacc_nz hacc_lt
  refine ⟨main.1, main.2.1, main.2.2.1, ?_⟩
  rw [main.2.2.2, hacc_val]
  norm_num

/-- In the general encode path the leading limb is nonzero, hence the
first run-length token is nonzero (a literal nonzero limb or a
signifier). -/
theorem rleTokens_head (d0 : Nat) (rest : List Nat) (h0 : d0 ≠ 0) :
    ∃ t0 ts, rleTokens (d0 :: rest) = t0 :: ts ∧ t0 ≠ 0 := by
  rw [rleTokens]
  by_cases hc : (d0 = ALL_ZEROS ∨ d0 = ALL_NINES) ∧ 3 ≤ countRun d0 rest + 1
  · rw [if_pos hc]
    refine ⟨_, _, rfl, ?_⟩
    split_ifs with h
    · exact absurd h (by simpa [ALL_ZEROS] using h0)
    · simp [NINES_SIGNIFIER, BASE]
  · rw [if_neg hc]
    exact ⟨d0, _, rfl, h0⟩

/-! ### First-byte bit arithmetic -/

theorem lor_sixtyfour (x : Nat) (h : x < 64) : 64 ||| x = 64 + x := by
  interval_cases x <;> rfl

theorem lor_onetwentyeight (x : Nat) (h : x < 128) : 128 ||| x = 128 + x := by
  interval_cases x <;> rfl

theorem and_sixtythree (n : Nat) : n &&& 63 = n % 64 := by
  have := Nat.and_pow_two_sub_one_eq_mod n 6
  norm_num at this
  exact this

theorem and_onetwentyeight (n : Nat) : n &&& 128 = if n / 128 % 2 = 1 then 128 else 0 := by
  have h := Nat.and_two_pow n 7
  norm_num at h
  rw [h, Nat.testBit_to_div_mod]
  norm_num
  split_ifs with hb
  · simp [hb]
  · simp [hb]

theorem and_sixtyfour (n : Nat) : n &&& 64 = if n / 64 % 2 = 1 then 64 else 0 := by
  have h := Nat.and_two_pow n 6
  norm_num at h
  rw [h, Nat.testBit_to_div_mod]
  norm_num
  split_ifs with hb
  · simp [hb]
  · simp [hb]

theorem lor_oneninetytwo (x : Nat) (h : x < 64) : 192 ||| x = 192 + x := by
  interval_cases x <;> rfl

/-- The sign and exponent-sign bits of the general-case first byte, in
arithmetic form. -/
def genFirstByteBase (σ e : Int) : Nat :=
  (if σ < 0 then NEG_SIGN_BIT else 0) + (if e < 0 then NEG_EXPONENT_SIGN_BIT else 0)

theorem genFirstByteBase_le (σ e : Int) : genFirstByteBase σ e ≤ 192 := by
  rw [genFirstByteBase, NEG_SIGN_BIT, NEG_EXPONENT_SIGN_BIT]
  split_ifs <;> omega

theorem fb1_eq (σ e : Int) :
    (if e < 0 then (if σ < 0 then NEG_SIGN_BIT else 0) ||| NEG_EXPONENT_SIGN_BIT
     else (if σ < 0 then NEG_SIGN_BIT else 0)) = genFirstByteBase σ e := by
  rw [genFirstByteBase, NEG_SIGN_BIT, NEG_EXPONENT_SIGN_BIT]
  split_ifs
  · exact lor_onetwentyeight 64 (by norm_num)
  · simp
  · omega
  · omega

theorem fbv_eq (σ e : Int) (v : Nat) (hv : v < 64) :
    genFirstByteBase σ e ||| v = genFirstByteBase σ e + v := by
  rw [genFirstByteBase, NEG_SIGN_BIT, NEG_EXPONENT_SIGN_BIT]
  split_ifs
  · show 128 + 64 ||| v = 128 + 64 + v
    exact lor_oneninetytwo v hv
  · show 128 + 0 ||| v = 128 + 0 + v
    simpa using lor_onetwentyeight v (by omega)
  · show 0 + 64 ||| v = 0 + 64 + v
    simpa using lor_sixtyfour v hv
  · simp

theorem genFB_and63 (σ e : Int) (v : Nat) (hv : v < 64) :
    (genFirstByteBase σ e + v) &&& 63 = v := by
  rw [and_sixtythree, genFirstByteBase, NEG_SIGN_BIT, NEG_EXPONENT_SIGN_BIT]
  split_ifs <;> omega

theorem genFB_and128 (σ e : Int) (v : Nat) (hv : v < 64) :
    (genFirstByteBase σ e + v) &&& 128 = if σ < 0 then 128 else 0 := by
  rw [and_onetwentyeight, genFirstByteBase, NEG_SIGN_BIT, NEG_EXPONENT_SIGN_BIT]
  by_cases hσ : σ < 0 <;> by_cases he : e < 0 <;>
    simp only [if_pos, if_neg, hσ, he, if_true, if_false] <;>
    first
      | (rw [if_pos (by omega)])
      | (rw [if_neg (by omega)])

theorem genFB_and64 (σ e : Int) (v : Nat) (hv : v < 64) :
    (genFirstByteBase σ e + v) &&& 64 = if e < 0 then 64 else 0 := by
  rw [and_sixtyfour, genFirstByteBase, NEG_SIGN_BIT, NEG_EXPONENT_SIGN_BIT]
  by_cases hσ : σ < 0 <;> by_cases he : e < 0 <;>
    simp only [if_pos, if_neg, hσ, he, if_true, if_false] <;>
    first
      | (rw [if_pos (by omega)])
      | (rw [if_neg (by omega)])

theorem exponentByteCount_bounds (e : Nat) :
    1 ≤ exponentByteCount e ∧ exponentByteCount e ≤ 7 := by
  rw [exponentByteCount]
  split_ifs <;> omega

/-- The encoding of a finite view that takes the general (non-special,
non-small-integer) path, with the first byte in arithmetic form, the
exponent bytes as canonical digits, and the mantissa split off. -/
theorem encode_general (σ e : Int) (ds : List Nat)
    (hgen : ¬ (ds.length = 1 ∧ ds.headD 0 ≤ MAX_SMALL_INTEGER ∧
               e = (if ds.headD 0 < 10 then (0 : Int) else 1))) :
    toArrayBuffer ⟨some σ, some e, some ds⟩ =
      (if MAX_SMALL_EXPONENT < e.natAbs then
        (genFirstByteBase σ e + exponentByteCount e.natAbs) :: Nat.digits 256 e.natAbs
       else if e.natAbs ≠ 0 then [genFirstByteBase σ e + (e.natAbs + EXPONENT_OFFSET)]
       else [genFirstByteBase σ e])
      ++ (rleTokens ds).foldl (fun a t => convert t RADIX a 0x100 0) [0] := by
  rw [toArrayBuffer]
  simp only [if_neg hgen, Option.getD_some]
  rw [fb1_eq]
  by_cases hbig : MAX_SMALL_EXPONENT < e.natAbs
  · rw [if_pos hbig, if_pos hbig]
    have hn : exponentByteCount e.natAbs < 64 := by
      have := (exponentByteCount_bounds e.natAbs).2
      omega
    rw [fbv_eq σ e _ hn, expBytesLE_eq_digits]
    have hlen : ((genFirstByteBase σ e + exponentByteCount e.natAbs) ::
        Nat.digits 256 e.natAbs).length = 1 + (Nat.digits 256 e.natAbs).length := by
      simp only [List.length_cons]
      omega
    rw [foldl_convert_append]
  · rw [if_neg hbig, if_neg hbig]
    by_cases hz : e.natAbs ≠ 0
    · rw [if_pos hz, if_pos hz]
      have hv : e.natAbs + EXPONENT_OFFSET < 64 := by
        rw [EXPONENT_OFFSET]
        rw [MAX_SMALL_EXPONENT] at hbig
        omega
      rw [fbv_eq σ e _ hv]
      exact foldl_convert_append RADIX 0x100 [genFirstByteBase σ e + (e.natAbs + EXPONENT_OFFSET)]
        (rleTokens ds) [0]
    · rw [if_neg hz, if_neg hz]
      exact foldl_convert_append RADIX 0x100 [genFirstByteBase σ e] (rleTokens ds) [0]

/-- Decoding the mantissa bytes produced by the encoder recovers the
limbs: the base conversion reproduces the reversed token stream and the
materialisation loop expands it back. -/
theorem decode_mantissa (ds : List Nat) (hne : ds ≠ []) (hlt : ∀ x ∈ ds, x < BASE)
    (hd0 : ds.headD 0 ≠ 0) (hrb : runsBounded ds) :
    ((rleTokens ds).foldl (fun a t => convert t RADIX a 0x100 0) [0] ≠ [] ∧
     (∀ dr : List Nat,
        dr = ((((rleTokens ds).foldl (fun a t => convert t RADIX a 0x100 0) [0]).reverse).foldl
              (fun acc b => convert b 0x100 acc RADIX 0) [0]) →
        materializeFuel dr (dr.length + 2) ((dr.length : Nat) : Int) []
          = some (ds.map (fun n => some ((n : Nat) : Int))))) := by
  obtain ⟨d0, rest, rfl⟩ : ∃ d0 rest, ds = d0 :: rest := by
    cases ds with
    | nil => exact absurd rfl hne
    | cons a l => exact ⟨a, l, rfl⟩
  simp only [List.headD_cons] at hd0
  obtain ⟨t0, ts, htok, ht0⟩ := rleTokens_head d0 rest hd0
  rw [htok]
  have hRADIX1 : 1 ≤ RADIX := by rw [RADIX, BASE]; norm_num
  have hRADIX2 : 2 ≤ RADIX := by rw [RADIX, BASE]; norm_num
  have hM := foldl_convert_from_zero 0x100 RADIX (by norm_num) hRADIX1 t0 ht0 ts
  obtain ⟨hMne, hMnz, hMlt, hMval⟩ := hM
  refine ⟨hMne, ?_⟩
  intro dr hdr
  -- the reversed mantissa starts with its (nonzero) most significant byte
  set M := (t0 :: ts).foldl (fun a t => convert t RADIX a 0x100 0) [0] with hMdef
  obtain ⟨m0, mrest, hMrev⟩ : ∃ m0 mrest, M.reverse = m0 :: mrest := by
    cases hrev : M.reverse with
    | nil => exact absurd (by simpa using congrArg List.reverse hrev) hMne
    | cons a l => exact ⟨a, l, rfl⟩
  have hm0 : m0 ≠ 0 := by
    have h1 : M.reverse.head? = some m0 := by rw [hMrev]; rfl
    have h2 : M.reverse.head? = M.getLast? := by
      rw [← List.getLast?_reverse]
      simp
    intro h0
    apply hMnz
    rw [← h2, h1, h0]
  have hdr' := foldl_convert_from_zero RADIX 0x100 hRADIX2 (by norm_num) m0 hm0 mrest
  rw [← hMrev] at hdr'
  obtain ⟨hdrne, hdrnz, hdrlt, hdrval⟩ := hdr'
  -- value of the reversed-byte fold is the value of the mantissa bytes
  have hdrvalN : Nat.ofDigits RADIX (M.reverse.foldl (fun a t => convert t 0x100 a RADIX 0) [0])
      = (t0 :: ts).foldl (fun n t => n * RADIX + t) 0 := by
    rw [hMrev] at hdrval ⊢
    rw [hdrval, ← hMval]
    rw [← hMrev]
    exact foldl_horner_reverse 0x100 M
  -- the token stream is well formed and canonical in base RADIX
  have hwf : WFStream (t0 :: ts) := by
    rw [← htok]
    exact wfStream_rleTokens _ hlt hrb
  have htoklt : ∀ x ∈ (t0 :: ts).reverse, x < RADIX := by
    intro x hx
    exact wfStream_mem_lt _ hwf x (List.mem_reverse.mp hx)
  have htoknz : lastNZ ((t0 :: ts).reverse) := by
    rw [lastNZ, List.getLast?_reverse]
    simp only [List.head?_cons]
    simpa using ht0
  have htokval : Nat.ofDigits RADIX ((t0 :: ts).reverse)
      = (t0 :: ts).foldl (fun n t => n * RADIX + t) 0 := by
    rw [← foldl_horner_reverse RADIX ((t0 :: ts).reverse), List.reverse_reverse]
  -- canonical digit lists with equal values coincide
  have hlastnz : ∀ (l : List Nat), lastNZ l → ∀ (h : l ≠ []), l.getLast h ≠ 0 := by
    intro l hl h
    rw [lastNZ, List.getLast?_eq_getLast l h] at hl
    intro hc
    exact hl (by rw [hc])
  have hcan1 : Nat.digits RADIX (Nat.ofDigits RADIX
      (M.reverse.foldl (fun a t => convert t 0x100 a RADIX 0) [0]))
      = M.reverse.foldl (fun a t => convert t 0x100 a RADIX 0) [0] :=
    Nat.digits_ofDigits RADIX (by rw [RADIX, BASE]; norm_num) _ hdrlt
      (hlastnz _ hdrnz)
  have hcan2 : Nat.digits RADIX (Nat.ofDigits RADIX ((t0 :: ts).reverse))
      = (t0 :: ts).reverse :=
    Nat.digits_ofDigits RADIX (by rw [RADIX, BASE]; norm_num) _ htoklt
      (hlastnz _ htoknz)
  have hdreq : dr = (t0 :: ts).reverse := by
    rw [hdr]
    rw [← hcan1, ← hcan2, hdrvalN, htokval]
  rw [hdreq]
  have hrun := materialize_run ((t0 :: ts).reverse) (t0 :: ts) hwf
    (((t0 :: ts).reverse).length + 2) [] (List.prefix_refl _)
    (by rw [List.length_reverse]; omega)
  rw [List.length_reverse] at hrun ⊢
  rw [hrun]
  rw [← htok, unrle_rleTokens _ hlt]
  simp

theorem decode_sign (σ e : Int) (hσ : σ = 1 ∨ σ = -1) (v : Nat) (hv : v < 64) :
    (if (genFirstByteBase σ e + v) &&& NEG_SIGN_BIT ≠ 0 then (-1 : Int) else 1) = σ := by
  rw [NEG_SIGN_BIT, genFB_and128 σ e v hv]
  rcases hσ with h | h
  · subst h
    norm_num
  · subst h
    norm_num

theorem decode_expsign (σ e : Int) (v : Nat) (hv : v < 64) (z : Int)
    (hz : z = e.natAbs) :
    (if (genFirstByteBase σ e + v) &&& NEG_EXPONENT_SIGN_BIT ≠ 0
      then (some z).map (fun w => -w) else some z) = some e := by
  rw [NEG_EXPONENT_SIGN_BIT, genFB_and64 σ e v hv]
  by_cases he : e < 0
  · rw [if_pos he, if_pos (by norm_num)]
    simp only [Option.map_some']
    rw [hz]
    congr 1
    omega
  · rw [if_neg he, if_neg (by norm_num)]
    rw [hz]
    congr 1
    omega

/-- Decoding an encoding that took the general path recovers the sign,
exponent and limbs exactly. -/
theorem decode_encode_general (σ e : Int) (hσ : σ = 1 ∨ σ = -1) (ds : List Nat)
    (hne : ds ≠ []) (hlt : ∀ x ∈ ds, x < BASE) (hd0 : ds.headD 0 ≠ 0)
    (hrb : runsBounded ds)
    (hgen : ¬ (ds.length = 1 ∧ ds.headD 0 ≤ MAX_SMALL_INTEGER ∧
               e = (if ds.headD 0 < 10 then (0 : Int) else 1)))
    (hmag : e.natAbs ≤ 9 * 10 ^ 15) :
    fromArrayBufferRaw (toArrayBuffer ⟨some σ, some e, some ds⟩)
      = .raw (some σ) (some e) (some (ds.map (fun n => some ((n : Nat) : Int)))) := by
  rw [encode_general σ e ds hgen]
  obtain ⟨hMne, hMat⟩ := decode_mantissa ds hne hlt hd0 hrb
  set M := (rleTokens ds).foldl (fun a t => convert t RADIX a 0x100 0) [0] with hMdef
  obtain ⟨m, ms, hMcons⟩ : ∃ m ms, M = m :: ms := by
    cases hM : M with
    | nil => exact absurd hM hMne
    | cons a l => exact ⟨a, l, rfl⟩
  by_cases hbig : MAX_SMALL_EXPONENT < e.natAbs
  · -- exponent carried by extra bytes
    rw [if_pos hbig]
    have h0 : 0 < e.natAbs := by rw [MAX_SMALL_EXPONENT] at hbig; omega
    have h7 : e.natAbs < 256 ^ 7 := by norm_num; omega
    have hcnt : exponentByteCount e.natAbs = (Nat.digits 256 e.natAbs).length :=
      exponentByteCount_eq_len _ h0 h7
    have hcb := exponentByteCount_bounds e.natAbs
    have hv : exponentByteCount e.natAbs < 64 := by omega
    rw [List.cons_append, fromArrayBufferRaw]
    have hrestne : (Nat.digits 256 e.natAbs ++ M).isEmpty = false := by
      rw [hMcons]
      cases Nat.digits 256 e.natAbs <;> simp
    have h63 := genFB_and63 σ e _ hv
    rw [SIX_LSB_MASK] at *
    have hexp : ¬ (EXPONENT_OFFSET < exponentByteCount e.natAbs) := by
      rw [EXPONENT_OFFSET]
      omega
    have hexpz : exponentByteCount e.natAbs ≠ 0 := by omega
    have hread : readExpLoop ((genFirstByteBase σ e + exponentByteCount e.natAbs) ::
        (Nat.digits 256 e.natAbs ++ M)) (exponentByteCount e.natAbs)
        = some ((e.natAbs : Nat) : Int) := by
      rw [hcnt, readExpLoop_spec, Nat.ofDigits_digits]
    have hdrop : List.drop (1 + exponentByteCount e.natAbs)
        ((genFirstByteBase σ e + exponentByteCount e.natAbs) ::
          (Nat.digits 256 e.natAbs ++ M)) = M := by
      rw [Nat.add_comm 1 _, List.drop_succ_cons, hcnt, List.drop_left]
    have hesign := decode_expsign σ e _ hv ((e.natAbs : Nat) : Int) rfl
    have hsign := decode_sign σ e hσ _ hv
    simp only [hrestne, Bool.false_eq_true, if_false, h63, if_neg hexp, if_pos hexpz,
      hdrop, hread, hsign, hesign, hMat _ rfl]
  · rw [if_neg hbig]
    have hm30 : e.natAbs ≤ 30 := by rw [MAX_SMALL_EXPONENT] at hbig; omega
    by_cases hz : e.natAbs ≠ 0
    · -- small nonzero exponent, stored in the first byte
      rw [if_pos hz]
      have hv : e.natAbs + EXPONENT_OFFSET < 64 := by rw [EXPONENT_OFFSET]; omega
      rw [List.singleton_append, fromArrayBufferRaw]
      have hrestne : M.isEmpty = false := by rw [hMcons]; rfl
      have h63 := genFB_and63 σ e _ hv
      rw [SIX_LSB_MASK] at *
      have hexp : EXPONENT_OFFSET < e.natAbs + EXPONENT_OFFSET := by
        rw [EXPONENT_OFFSET]
        omega
      have he0 : ((e.natAbs + EXPONENT_OFFSET : Nat) : Int) - (EXPONENT_OFFSET : Nat)
          = ((e.natAbs : Nat) : Int) := by
        push_cast
        ring
      have hesign := decode_expsign σ e _ hv ((e.natAbs : Nat) : Int) rfl
      have hsign := decode_sign σ e hσ _ hv
      simp only [hrestne, Bool.false_eq_true, if_false, h63, if_pos hexp,
        List.drop_succ_cons, List.drop_zero, he0, hsign, hesign, hMat _ rfl]
    · -- exponent zero: bare first byte
      rw [if_neg hz]
      have hz0 : e.natAbs = 0 := by omega
      have he' : e = 0 := by omega
      have hv : (0 : Nat) < 64 := by norm_num
      have hgb : genFirstByteBase σ e = genFirstByteBase σ e + 0 := by omega
      rw [List.singleton_append, fromArrayBufferRaw]
      have hrestne : M.isEmpty = false := by rw [hMcons]; rfl
      have h63 : genFirstByteBase σ e &&& 63 = 0 := by
        rw [hgb]
        exact genFB_and63 σ e 0 hv
      rw [SIX_LSB_MASK] at *
      have hexp : ¬ (EXPONENT_OFFSET < (0 : Nat)) := by rw [EXPONENT_OFFSET]; omega
      have hesign : (if genFirstByteBase σ e &&& NEG_EXPONENT_SIGN_BIT ≠ 0
          then (some (0 : Int)).map (fun w => -w) else some (0 : Int)) = some e := by
        rw [hgb]
        have := decode_expsign σ e 0 hv (0 : Int) (by omega)
        simpa using this
      have hsign : (if genFirstByteBase σ e &&& NEG_SIGN_BIT ≠ 0
          then (-1 : Int) else 1) = σ := by
        rw [hgb]
        exact decode_sign σ e hσ 0 hv
      simp only [hrestne, Bool.false_eq_true, if_false, h63, if_neg hexp,
        List.drop_succ_cons, List.drop_zero, hsign, hesign]
      rw [if_neg (show ¬((0 : Nat) ≠ 0) by omega)]
      have hdrop1 : List.drop ((some (0 : Int), 1) : Option Int × Nat).2
          (genFirstByteBase σ e :: M) = M := rfl
      rw [hdrop1, hMat _ rfl]
      exact congrArg
        (fun w => RawDecode.raw (some σ) w (some (List.map (fun n => some ((n : Nat) : Int)) ds)))
        hesign

/-- Decoding the single-byte encoding of a small integer. -/
theorem decode_encode_small (σ : Int) (hσ : σ = 1 ∨ σ = -1) (d0 : Nat) (hd : d0 ≤ 50) :
    fromArrayBufferRaw (toArrayBuffer
        ⟨some σ, some (if d0 < 10 then (0 : Int) else 1), some [d0]⟩)
      = .raw (some σ) (some (if d0 < 10 then (0 : Int) else 1)) (some [some (d0 : Int)]) := by
  rcases hσ with h | h <;> subst h <;> interval_cases d0 <;> decide

/-- Decoding the encoding of a finite host value (before range check). -/
theorem decode_encode_finite (σ e : Int) (hσ : σ = 1 ∨ σ = -1) (ds : List Nat)
    (hne : ds ≠ []) (hlt : ∀ x ∈ ds, x < BASE)
    (hd0 : ds.headD 0 ≠ 0 ∨ ds = [0]) (hz : ds = [0] → e = 0)
    (hrb : runsBounded ds) (hmag : e.natAbs ≤ 9 * 10 ^ 15) :
    fromArrayBufferRaw (toArrayBuffer ⟨some σ, some e, some ds⟩)
      = .raw (some σ) (some e) (some (ds.map (fun n => some ((n : Nat) : Int)))) := by
  by_cases hsmall : ds.length = 1 ∧ ds.headD 0 ≤ MAX_SMALL_INTEGER ∧
      e = (if ds.headD 0 < 10 then (0 : Int) else 1)
  · obtain ⟨hlen, hle, hee⟩ := hsmall
    obtain ⟨d0, rfl⟩ := List.length_eq_one.mp hlen
    simp only [List.headD_cons] at hle hee
    subst hee
    have := decode_encode_small σ hσ d0 (by rw [MAX_SMALL_INTEGER] at hle; exact hle)
    simpa using this
  · have hd0' : ds.headD 0 ≠ 0 := by
      rcases hd0 with h | h
      · exact h
      · exfalso
        apply hsmall
        subst h
        refine ⟨rfl, by rw [MAX_SMALL_INTEGER]; simp, ?_⟩
        rw [hz rfl]
        simp
    exact decode_encode_general σ e hσ ds hne hlt hd0' hrb hsmall hmag

/-- Resolving the final range check when the exponent is in range. -/
theorem fromArrayBuffer_of_raw_inrange (maxE minE : Int) (bytes : List Nat)
    (s : Option Int) (e : Int) (d : Option (List DigitV))
    (hraw : fromArrayBufferRaw bytes = .raw s (some e) d)
    (h1 : minE ≤ e) (h2 : e ≤ maxE) :
    fromArrayBuffer maxE minE bytes = .res s (some e) d := by
  rw [fromArrayBuffer, hraw]
  have hb : (decide (maxE < e) || decide (e < minE)) = false := by
    simp only [Bool.or_eq_false_iff, decide_eq_false_iff_not]
    omega
  simp [hb]

/-- The range check leaves a `NaN` exponent alone. -/
theorem fromArrayBuffer_of_raw_nan (maxE minE : Int) (bytes : List Nat)
    (s : Option Int) (d : Option (List DigitV))
    (hraw : fromArrayBufferRaw bytes = .raw s none d) :
    fromArrayBuffer maxE minE bytes = .res s none d := by
  rw [fromArrayBuffer, hraw]
  rfl

/-- The range check collapses an out-of-range exponent to `NaN` limbs
and exponent, leaving the sign as computed. -/
theorem fromArrayBuffer_of_raw_oob (maxE minE : Int) (bytes : List Nat)
    (s : Option Int) (e : Int) (d : Option (List DigitV))
    (hraw : fromArrayBufferRaw bytes = .raw s (some e) d)
    (hoob : maxE < e ∨ e < minE) :
    fromArrayBuffer maxE minE bytes = .res s none none := by
  rw [fromArrayBuffer, hraw]
  have hb : (decide (maxE < e) || decide (e < minE)) = true := by
    rcases hoob with h | h <;> simp [h]
  simp [hb]

/-! ### Host-producible views and the round trip -/

/-- Shape of the field triple of a finite value produced by the host
library: sign `±1`, exponent within `[minE, maxE]`, a nonempty limb
array of base-`10⁷` digits with no leading zero limb (except the value
zero itself, whose exponent is `0`). -/
def hostFinite (minE maxE : Int) (σ e : Int) (ds : List Nat) : Prop :=
  (σ = 1 ∨ σ = -1) ∧ minE ≤ e ∧ e ≤ maxE ∧ ds ≠ [] ∧ (∀ x ∈ ds, x < BASE) ∧
  (ds.headD 0 ≠ 0 ∨ ds = [0]) ∧ (ds = [0] → e = 0)

/-- A view the host can produce: NaN, `±∞`, or a finite triple. -/
def hostView (minE maxE : Int) (v : DecView) : Prop :=
  v = ⟨none, none, none⟩ ∨
  (∃ σ, (σ = 1 ∨ σ = -1) ∧ v = ⟨some σ, none, none⟩) ∨
  (∃ σ e ds, hostFinite minE maxE σ e ds ∧ v = ⟨some σ, some e, some ds⟩)

theorem filterMap_toNat_map (ds : List Nat) :
    List.filterMap (fun o => o.bind Int.toNat') (ds.map (fun n => some ((n : Nat) : Int)))
      = ds := by
  induction ds with
  | nil => rfl
  | cons d rest ih =>
    simp only [List.map_cons, List.filterMap_cons]
    have : (some ((d : Nat) : Int)).bind Int.toNat' = some d := rfl
    rw [this, ih]

/-- The full round trip for every host-producible view whose runs of
repeated all-zero / all-nine limbs are shorter than `RADIX`: decoding
the encoding restores the exact field triple, and re-encoding the
decoded view reproduces the byte string. -/
theorem roundtrip (minE maxE : Int)
    (hminE : -(9 * 10 ^ 15) ≤ minE) (hmaxE : maxE ≤ 9 * 10 ^ 15)
    (v : DecView) (hv : hostView minE maxE v)
    (hrb : ∀ ds, v.d = some ds → runsBounded ds) :
    fromArrayBuffer maxE minE (toArrayBuffer v) = toResult v ∧
    toArrayBuffer (resToView (fromArrayBuffer maxE minE (toArrayBuffer v)))
      = toArrayBuffer v := by
  rcases hv with hnan | ⟨σ, hσ, hinf⟩ | ⟨σ, e, ds, hfin, hform⟩
  · subst hnan
    have hraw : fromArrayBufferRaw (toArrayBuffer ⟨none, none, none⟩)
        = .raw none none none := by decide
    have h1 := fromArrayBuffer_of_raw_nan maxE minE _ none none hraw
    rw [h1]
    exact ⟨rfl, rfl⟩
  · subst hinf
    rcases hσ with h | h <;> subst h
    · have hraw : fromArrayBufferRaw (toArrayBuffer ⟨some 1, none, none⟩)
          = .raw (some 1) none none := by decide
      have h1 := fromArrayBuffer_of_raw_nan maxE minE _ (some 1) none hraw
      rw [h1]
      exact ⟨rfl, rfl⟩
    · have hraw : fromArrayBufferRaw (toArrayBuffer ⟨some (-1), none, none⟩)
          = .raw (some (-1)) none none := by decide
      have h1 := fromArrayBuffer_of_raw_nan maxE minE _ (some (-1)) none hraw
      rw [h1]
      exact ⟨rfl, rfl⟩
  · subst hform
    obtain ⟨hσ, he1, he2, hne, hlt, hd0, hz⟩ := hfin
    have hmag : e.natAbs ≤ 9 * 10 ^ 15 := by omega
    have hraw := decode_encode_finite σ e hσ ds hne hlt hd0 hz
      (hrb ds rfl) hmag
    have h1 := fromArrayBuffer_of_raw_inrange maxE minE _ (some σ) e _ hraw he1 he2
    rw [h1]
    constructor
    · rw [toResult]
      simp only [Option.map_some']
    · rw [resToView]
      simp only [Option.map_some']
      rw [filterMap_toNat_map]


/-! ### Material for the claims about the codec -/

theorem countRun_replicate_append (x : Nat) (l : List Nat) :
    ∀ n, countRun x (List.replicate n x ++ l) = n + countRun x l := by
  intro n
  induction n with
  | zero => simp
  | succ k ih =>
    rw [List.replicate_succ, List.cons_append]
    have : countRun x (x :: (List.replicate k x ++ l)) = countRun x (List.replicate k x ++ l) + 1 := by
      simp [countRun]
    rw [this, ih]
    omega

/-- A host-producible value on which the encoding is not injective: a
run of `RADIX` zero limbs, whose repeat count overflows one
base-`RADIX` digit. -/
def badView : DecView := ⟨some 1, some 0, some (1 :: (List.replicate 10000002 0 ++ [1]))⟩

theorem countRun_cons_ne (x y : Nat) (l : List Nat) (h : ¬ y = x) :
    countRun x (y :: l) = 0 := by
  simp [countRun, h]

theorem countRun_cons_eq (x : Nat) (l : List Nat) :
    countRun x (x :: l) = countRun x l + 1 := by
  simp [countRun]

theorem rleTokens_badView :
    rleTokens (1 :: (List.replicate 10000002 0 ++ [1]))
      = [1, ZEROS_SIGNIFIER, 10000002, 1] := by
  rw [rleTokens]
  have hsplit : List.replicate 10000002 (0 : Nat) ++ [1]
      = 0 :: (List.replicate 10000001 0 ++ [1]) := by
    rw [show (10000002 : Nat) = 10000001 + 1 by norm_num, List.replicate_succ,
      List.cons_append]
  have h1 : countRun 1 (List.replicate 10000002 0 ++ [1]) = 0 := by
    rw [hsplit]
    exact countRun_cons_ne 1 0 _ (by norm_num)
  rw [h1, if_neg (by norm_num [ALL_ZEROS, ALL_NINES, BASE])]
  congr 1
  rw [hsplit, rleTokens]
  have h2 : countRun 0 (List.replicate 10000001 0 ++ [1]) = 10000001 := by
    rw [countRun_replicate_append]
    norm_num [countRun]
  rw [h2, if_pos (by norm_num [ALL_ZEROS])]
  have hz : (0 : Nat) = ALL_ZEROS := rfl
  rw [if_pos hz]
  have hdrop : (List.replicate 10000001 (0 : Nat) ++ [1]).drop (10000001 + 1 - 1) = [1] := by
    have hlen : (10000001 + 1 - 1 : Nat) = (List.replicate 10000001 (0 : Nat)).length := by
      rw [List.length_replicate]
    rw [hlen, List.drop_left]
  rw [hdrop]
  have hlast : rleTokens [1] = [1] := by
    rw [rleTokens]
    norm_num [countRun]
    rw [rleTokens]
  rw [hlast]

theorem badView_length : (1 :: (List.replicate 10000002 (0 : Nat) ++ [1])).length
    = 10000004 := by
  rw [List.length_cons, List.length_append, List.length_replicate]
  rfl

theorem encode_badView :
    toArrayBuffer badView
      = 0 :: ([1, ZEROS_SIGNIFIER, 10000002, 1].foldl
          (fun a t => convert t RADIX a 0x100 0) [0]) := by
  rw [badView]
  rw [encode_general 1 0 _ (by
    intro h
    have hl := h.1
    rw [badView_length] at hl
    norm_num at hl)]
  rw [rleTokens_badView]
  have hfb : genFirstByteBase 1 0 = 0 := by
    rw [genFirstByteBase]
    norm_num
  rw [hfb, if_neg (by norm_num [MAX_SMALL_EXPONENT]), if_neg (by norm_num),
    List.singleton_append]

/-- Decoding with a bare zero first byte: sign `+1`, exponent `0`, and
the mantissa is everything after the first byte. -/
theorem fromArrayBufferRaw_zero_header (M : List Nat) (m : Nat) (ms : List Nat)
    (hM : M = m :: ms) :
    fromArrayBufferRaw (0 :: M)
      = (match materializeFuel
            (M.reverse.foldl (fun acc b => convert b 0x100 acc RADIX 0) [0])
            ((M.reverse.foldl (fun acc b => convert b 0x100 acc RADIX 0) [0]).length + 2)
            (((M.reverse.foldl (fun acc b => convert b 0x100 acc RADIX 0) [0]).length
              : Nat) : Int) []
          with
          | none => RawDecode.hang
          | some ds => RawDecode.raw (some 1) (some 0) (some ds)) := by
  rw [fromArrayBufferRaw]
  have hne : M.isEmpty = false := by rw [hM]; rfl
  have h128 : (0 : Nat) &&& NEG_SIGN_BIT = 0 := by decide
  have h63 : (0 : Nat) &&& SIX_LSB_MASK = 0 := by decide
  have h64 : (0 : Nat) &&& NEG_EXPONENT_SIGN_BIT = 0 := by decide
  simp only [hne, Bool.false_eq_true, if_false, h128, h63, h64, ne_eq,
    not_true_eq_false, not_false_eq_true]
  rw [if_neg (show ¬ (EXPONENT_OFFSET < 0) by rw [EXPONENT_OFFSET]; omega)]
  have hfst : ((some (0 : Int), 1) : Option Int × Nat).1 = some 0 := rfl
  have hdrop : List.drop ((some (0 : Int), 1) : Option Int × Nat).2 (0 :: M) = M := rfl
  rw [hfst, hdrop]

theorem decode_badView :
    fromArrayBuffer (9 * 10 ^ 15) (-(9 * 10 ^ 15)) (toArrayBuffer badView)
      = .res (some 1) (some 0) (some [some 1, some 1]) := by
  rw [encode_badView]
  set M := [1, ZEROS_SIGNIFIER, 10000002, 1].foldl
    (fun a t => convert t RADIX a 0x100 0) [0] with hMdef
  have hRADIX2 : 2 ≤ RADIX := by rw [RADIX, BASE]; norm_num
  have hM := foldl_convert_from_zero 0x100 RADIX (by norm_num)
    (by rw [RADIX, BASE]; norm_num) 1 (by norm_num) [ZEROS_SIGNIFIER, 10000002, 1]
  obtain ⟨hMne, hMnz, hMlt, hMval⟩ := hM
  obtain ⟨m, ms, hMcons⟩ : ∃ m ms, M = m :: ms := by
    cases hMc : M with
    | nil => exact absurd hMc hMne
    | cons a l => exact ⟨a, l, rfl⟩
  rw [fromArrayBuffer, fromArrayBufferRaw_zero_header M m ms hMcons]
  -- the reversed-byte fold reconstructs the canonical base-RADIX digits
  obtain ⟨m0, mrest, hMrev⟩ : ∃ m0 mrest, M.reverse = m0 :: mrest := by
    cases hrev : M.reverse with
    | nil => exact absurd (by simpa using congrArg List.reverse hrev) hMne
    | cons a l => exact ⟨a, l, rfl⟩
  have hm0 : m0 ≠ 0 := by
    have h1 : M.reverse.head? = some m0 := by rw [hMrev]; rfl
    have h2 : M.reverse.head? = M.getLast? := by
      rw [← List.getLast?_reverse]
      simp
    intro h0
    apply hMnz
    rw [← h2, h1, h0]
  have hdr' := foldl_convert_from_zero RADIX 0x100 hRADIX2 (by norm_num) m0 hm0 mrest
  rw [← hMrev] at hdr'
  obtain ⟨hdrne, hdrnz, hdrlt, hdrval⟩ := hdr'
  have hlastnz : ∀ (l : List Nat), lastNZ l → ∀ (h : l ≠ []), l.getLast h ≠ 0 := by
    intro l hl h
    rw [lastNZ, List.getLast?_eq_getLast l h] at hl
    intro hc
    exact hl (by rw [hc])
  have hdrvalN : Nat.ofDigits RADIX
      (M.reverse.foldl (fun a t => convert t 0x100 a RADIX 0) [0])
      = 2000001100000200000013 := by
    rw [hdrval, foldl_horner_reverse 0x100 M, hMval]
    decide
  have hcan1 : Nat.digits RADIX (Nat.ofDigits RADIX
      (M.reverse.foldl (fun a t => convert t 0x100 a RADIX 0) [0]))
      = M.reverse.foldl (fun a t => convert t 0x100 a RADIX 0) [0] :=
    Nat.digits_ofDigits RADIX (by rw [RADIX, BASE]; norm_num) _ hdrlt
      (hlastnz _ hdrnz)
  have hcan2 : Nat.digits RADIX (2000001100000200000013 : Nat)
      = [1, 0, NINES_SIGNIFIER, 1] := by
    have hval : Nat.ofDigits RADIX [1, 0, NINES_SIGNIFIER, 1]
        = 2000001100000200000013 := by decide
    have := Nat.digits_ofDigits RADIX (by rw [RADIX, BASE]; norm_num)
      [1, 0, NINES_SIGNIFIER, 1] (by decide) (by decide)
    rw [hval] at this
    exact this
  have hdreq : M.reverse.foldl (fun a t => convert t 0x100 a RADIX 0) [0]
      = [1, 0, NINES_SIGNIFIER, 1] := by
    rw [← hcan1, hdrvalN, hcan2]
  rw [hdreq]
  have hmat : materializeFuel [1, 0, NINES_SIGNIFIER, 1]
      (([1, 0, NINES_SIGNIFIER, (1 : Nat)].length) + 2)
      ((([1, 0, NINES_SIGNIFIER, (1 : Nat)].length : Nat)) : Int) []
      = some [some 1, some 1] := by decide
  rw [hmat]
  rfl


/-! ### Codec claims -/

/-- C1 (amended): for every decimal view the host can produce in which
every run of repeated all-zero / all-nine limbs is shorter than `RADIX`
limbs, decoding the encoding restores the exact field triple (sign,
exponent, limbs — treating the NaN fields as equal), and re-encoding
the decoded view reproduces the byte string byte-for-byte. -/
theorem claim_C1_roundtrip (minE maxE : Int)
    (hminE : -(9 * 10 ^ 15) ≤ minE) (hmaxE : maxE ≤ 9 * 10 ^ 15)
    (v : DecView) (hv : hostView minE maxE v)
    (hrb : ∀ ds, v.d = some ds → runsBounded ds) :
    fromArrayBuffer maxE minE (toArrayBuffer v) = toResult v ∧
    toArrayBuffer (resToView (fromArrayBuffer maxE minE (toArrayBuffer v)))
      = toArrayBuffer v :=
  roundtrip minE maxE hminE hmaxE v hv hrb

theorem claim_C1_roundtrip_witness :
    fromArrayBuffer (9 * 10 ^ 15) (-(9 * 10 ^ 15))
        (toArrayBuffer ⟨some 1, some 9, some [1234567, 5464545]⟩)
      = toResult ⟨some 1, some 9, some [1234567, 5464545]⟩ ∧
    toArrayBuffer (resToView (fromArrayBuffer (9 * 10 ^ 15) (-(9 * 10 ^ 15))
        (toArrayBuffer ⟨some 1, some 9, some [1234567, 5464545]⟩)))
      = toArrayBuffer ⟨some 1, some 9, some [1234567, 5464545]⟩ :=
  claim_C1_roundtrip (-(9 * 10 ^ 15)) (9 * 10 ^ 15) (by norm_num) (by norm_num)
    ⟨some 1, some 9, some [1234567, 5464545]⟩
    (Or.inr (Or.inr ⟨1, 9, [1234567, 5464545],
      ⟨Or.inl rfl, by norm_num, by norm_num, by simp,
        by intro x hx; fin_cases hx <;> norm_num [BASE],
        Or.inl (by norm_num), by intro h; simp at h⟩, rfl⟩))
    (by
      intro ds hds
      injection hds with h
      subst h
      exact runsBounded_of_short _ (by norm_num [RADIX, BASE]))

/-- C1 counterexample: the claim as stated fails on a host-producible
value containing a run of `RADIX` zero limbs — the repeat count
overflows one base-`RADIX` digit, so decoding the encoding loses the
run (the decoded limbs are `[1, 1]`). -/
theorem claim_C1_counterexample :
    hostView (-(9 * 10 ^ 15)) (9 * 10 ^ 15) badView ∧
    fromArrayBuffer (9 * 10 ^ 15) (-(9 * 10 ^ 15)) (toArrayBuffer badView)
      ≠ toResult badView := by
  constructor
  · right
    right
    refine ⟨1, 0, 1 :: (List.replicate 10000002 0 ++ [1]),
      ⟨Or.inl rfl, by norm_num, by norm_num, List.cons_ne_nil _ _, ?_,
        Or.inl (by norm_num), fun _ => rfl⟩, rfl⟩
    intro x hx
    rcases List.mem_cons.mp hx with h | h
    · rw [h, BASE]
      norm_num
    · rcases List.mem_append.mp h with h2 | h2
      · rw [List.eq_of_mem_replicate h2, BASE]
        norm_num
      · rw [List.mem_singleton.mp h2, BASE]
        norm_num
  · rw [decode_badView]
    have htr : toResult badView = .res (some 1) (some 0)
        (some ((1 :: (List.replicate 10000002 0 ++ [1])).map
          (fun n => some ((n : Nat) : Int)))) := rfl
    rw [htr]
    intro hcon
    simp only [DecodeResult.res.injEq, Option.some.injEq] at hcon
    have hlen := congrArg List.length hcon.2.2
    rw [List.length_map, badView_length] at hlen
    norm_num at hlen

/-- C2 (amended): decoding a byte string whose reconstructed signed
exponent falls outside `[minE, maxE]` yields a view with exponent NaN
and limbs none; the sign field keeps the value derived from the sign
bit (it is not replaced by NaN). -/
theorem claim_C2_clamp (maxE minE : Int) (bytes : List Nat) (s : Option Int)
    (e : Int) (d : Option (List DigitV))
    (hraw : fromArrayBufferRaw bytes = .raw s (some e) d)
    (hoob : maxE < e ∨ e < minE) :
    fromArrayBuffer maxE minE bytes = .res s none none :=
  fromArrayBuffer_of_raw_oob maxE minE bytes s e d hraw hoob

theorem decode_oob_example :
    fromArrayBufferRaw [135, 255, 255, 255, 255, 255, 255, 255, 1]
      = .raw (some (-1)) (some 72057594037927935) (some [some 1]) := by
  have h1 : (135 : Nat) &&& 63 = 7 := by decide
  have h2 : (135 : Nat) &&& 128 = 128 := by decide
  have h3 : (135 : Nat) &&& 64 = 0 := by decide
  simp [fromArrayBufferRaw, convert, carryAll, carryExpand, RADIX, BASE,
    NEG_SIGN_BIT, NEG_EXPONENT_SIGN_BIT, SIX_LSB_MASK, EXPONENT_OFFSET,
    NAN_BYTE, INFINITY_BYTE, NEG_INFINITY_BYTE, SMALL_INTEGER_BIT,
    readExpLoop, materializeFuel, jsGet, ZEROS_SIGNIFIER, NINES_SIGNIFIER,
    ALL_ZEROS, ALL_NINES, List.range_succ, h1, h2, h3]

theorem claim_C2_clamp_witness :
    fromArrayBuffer (9 * 10 ^ 15) (-(9 * 10 ^ 15))
        [135, 255, 255, 255, 255, 255, 255, 255, 1]
      = .res (some (-1)) none none :=
  claim_C2_clamp (9 * 10 ^ 15) (-(9 * 10 ^ 15)) _ (some (-1))
    72057594037927935 (some [some 1]) decode_oob_example (Or.inl (by norm_num))

/-- C2 counterexample: the decoded view of an out-of-range byte string
keeps the sign `-1` from the sign bit (the claim says the decoded value
is NaN with the sign not preserved); re-encoding it produces the
`-Infinity` byte, not the NaN byte. -/
theorem claim_C2_counterexample :
    fromArrayBuffer (9 * 10 ^ 15) (-(9 * 10 ^ 15))
        [135, 255, 255, 255, 255, 255, 255, 255, 1]
      = .res (some (-1)) none none ∧
    fromArrayBuffer (9 * 10 ^ 15) (-(9 * 10 ^ 15))
        [135, 255, 255, 255, 255, 255, 255, 255, 1]
      ≠ .res none none none ∧
    toArrayBuffer (resToView (fromArrayBuffer (9 * 10 ^ 15) (-(9 * 10 ^ 15))
        [135, 255, 255, 255, 255, 255, 255, 255, 1]))
      = [NEG_INFINITY_BYTE] ∧ NEG_INFINITY_BYTE ≠ NAN_BYTE := by
  have h := fromArrayBuffer_of_raw_oob (9 * 10 ^ 15) (-(9 * 10 ^ 15)) _
    (some (-1)) 72057594037927935 (some [some 1]) decode_oob_example
    (Or.inl (by norm_num))
  rw [h]
  refine ⟨rfl, by intro hcon; simp at hcon, rfl, by decide⟩

/-- C3 counterexample: the decimal 50 does not encode to `0x32`; it is
in the upper small-integer range, so its byte is `50 + 12` with the
small-integer flag: `0x7E`. -/
theorem claim_C3_counterexample :
    toArrayBuffer ⟨some 1, some 1, some [50]⟩ = [0x7E] ∧
    toArrayBuffer ⟨some 1, some 1, some [50]⟩ ≠ [0x32] := by
  exact ⟨by decide, by decide⟩

/-- C3 (amended): the single-byte encodings — `0 ↦ 0x26`, `-0 ↦ 0xA6`,
`1 ↦ 0x27`, `-1 ↦ 0xA7`, `50 ↦ 0x7E` (not `0x32`); `51` needs at least
two bytes; NaN and `±∞` take one byte; and every integer in
`[-50, 50]` encodes to exactly one byte. -/
theorem claim_C3_single_bytes :
    toArrayBuffer ⟨some 1, some 0, some [0]⟩ = [0x26] ∧
    toArrayBuffer ⟨some (-1), some 0, some [0]⟩ = [0xA6] ∧
    toArrayBuffer ⟨some 1, some 0, some [1]⟩ = [0x27] ∧
    toArrayBuffer ⟨some (-1), some 0, some [1]⟩ = [0xA7] ∧
    toArrayBuffer ⟨some 1, some 1, some [50]⟩ = [0x7E] ∧
    2 ≤ (toArrayBuffer ⟨some 1, some 1, some [51]⟩).length ∧
    toArrayBuffer ⟨none, none, none⟩ = [NAN_BYTE] ∧
    toArrayBuffer ⟨some 1, none, none⟩ = [INFINITY_BYTE] ∧
    toArrayBuffer ⟨some (-1), none, none⟩ = [NEG_INFINITY_BYTE] ∧
    (∀ σ : Int, (σ = 1 ∨ σ = -1) → ∀ d0 : Nat, d0 ≤ 50 →
      (toArrayBuffer
        ⟨some σ, some (if d0 < 10 then (0 : Int) else 1), some [d0]⟩).length = 1) := by
  refine ⟨by decide, by decide, by decide, by decide, by decide, ?_, by decide,
    by decide, by decide, ?_⟩
  · have h51 : toArrayBuffer ⟨some 1, some 1, some [51]⟩ = [8, 51] := by
      simp [toArrayBuffer, rleTokens, countRun, convert, carryAll, carryExpand,
        ALL_ZEROS, ALL_NINES, BASE, RADIX, MAX_SMALL_INTEGER, MAX_SMALLER_INTEGER,
        MAX_SMALL_EXPONENT, EXPONENT_OFFSET, NEG_SIGN_BIT, NEG_EXPONENT_SIGN_BIT,
        SMALL_INTEGER_BIT, SMALL_INTEGER_OFFSET, SMALLER_INTEGER_OFFSET,
        ZEROS_SIGNIFIER, NINES_SIGNIFIER, exponentByteCount, expBytesLE, BYTES_MASK]
    rw [h51]
    norm_num
  · intro σ hσ d0 h50
    rcases hσ with h | h <;> subst h <;> interval_cases d0 <;> decide

theorem claim_C3_single_bytes_witness :
    (toArrayBuffer ⟨some (1 : Int), some (if (13 : Nat) < 10 then (0 : Int) else 1),
      some [13]⟩).length = 1 :=
  claim_C3_single_bytes.2.2.2.2.2.2.2.2.2 1 (Or.inl rfl) 13 (by norm_num)

/-- C4 counterexample: a finite value that takes the general encode
path with exponent `0` (two limbs, `e = 0`) gets `0` in the low six
bits of its first byte — not `|e| + 7 = 7` as the claim requires for
every `|e| ≤ 30`. -/
theorem claim_C4_counterexample :
    (toArrayBuffer ⟨some 1, some 0, some [123, 456]⟩).headD 0 &&& SIX_LSB_MASK ≠
      (0 : Int).natAbs + EXPONENT_OFFSET := by
  have h : (toArrayBuffer ⟨some 1, some 0, some [123, 456]⟩).headD 0
      &&& SIX_LSB_MASK = 0 := by
    rw [encode_general 1 0 [123, 456] (by decide)]
    simp [MAX_SMALL_EXPONENT, genFirstByteBase, SIX_LSB_MASK, NEG_SIGN_BIT,
      NEG_EXPONENT_SIGN_BIT, Nat.zero_and]
  rw [h]
  decide

/-- C4 (amended): in the general encode path the sign bit of the first
byte is set iff the value is negative and the exponent-sign bit iff
`e < 0`; for `1 ≤ |e| ≤ 30` the low six bits hold `|e| + 7 ∈ [8, 37]`;
for `e = 0` (reachable with a multi-limb mantissa) they hold `0`, not
`7`; for `|e| > 30` they hold a byte count in `[1, 7]` and that many
following bytes carry `|e|` little-endian. -/
theorem claim_C4_header (σ e : Int) (ds : List Nat)
    (hgen : ¬ (ds.length = 1 ∧ ds.headD 0 ≤ MAX_SMALL_INTEGER ∧
               e = (if ds.headD 0 < 10 then (0 : Int) else 1)))
    (hmag : e.natAbs < 256 ^ 7) :
    ∃ fb rest, toArrayBuffer ⟨some σ, some e, some ds⟩ = fb :: rest ∧
      fb &&& NEG_SIGN_BIT = (if σ < 0 then NEG_SIGN_BIT else 0) ∧
      fb &&& NEG_EXPONENT_SIGN_BIT = (if e < 0 then NEG_EXPONENT_SIGN_BIT else 0) ∧
      (1 ≤ e.natAbs → e.natAbs ≤ MAX_SMALL_EXPONENT →
        fb &&& SIX_LSB_MASK = e.natAbs + EXPONENT_OFFSET ∧
        EXPONENT_OFFSET + 1 ≤ fb &&& SIX_LSB_MASK ∧ fb &&& SIX_LSB_MASK ≤ 37) ∧
      (e = 0 → fb &&& SIX_LSB_MASK = 0) ∧
      (MAX_SMALL_EXPONENT < e.natAbs →
        1 ≤ fb &&& SIX_LSB_MASK ∧ fb &&& SIX_LSB_MASK ≤ 7 ∧
        rest.take (fb &&& SIX_LSB_MASK) = Nat.digits 256 e.natAbs ∧
        Nat.ofDigits 256 (rest.take (fb &&& SIX_LSB_MASK)) = e.natAbs) := by
  rw [encode_general σ e ds hgen]
  by_cases hbig : MAX_SMALL_EXPONENT < e.natAbs
  · rw [if_pos hbig]
    have hb := exponentByteCount_bounds e.natAbs
    have hv : exponentByteCount e.natAbs < 64 := by omega
    have hpos : 0 < e.natAbs := by rw [MAX_SMALL_EXPONENT] at hbig; omega
    have hlen := exponentByteCount_eq_len e.natAbs hpos hmag
    have h63 : (genFirstByteBase σ e + exponentByteCount e.natAbs) &&& SIX_LSB_MASK
        = exponentByteCount e.natAbs := by
      rw [SIX_LSB_MASK]; exact genFB_and63 σ e _ hv
    refine ⟨genFirstByteBase σ e + exponentByteCount e.natAbs,
      Nat.digits 256 e.natAbs
        ++ (rleTokens ds).foldl (fun a t => convert t RADIX a 0x100 0) [0],
      rfl, ?_, ?_, ?_, ?_, ?_⟩
    · rw [NEG_SIGN_BIT]; exact genFB_and128 σ e _ hv
    · rw [NEG_EXPONENT_SIGN_BIT]; exact genFB_and64 σ e _ hv
    · intro _ h2
      exact absurd h2 (by rw [MAX_SMALL_EXPONENT] at hbig ⊢; omega)
    · intro h0
      exfalso
      rw [h0] at hbig
      rw [MAX_SMALL_EXPONENT] at hbig
      norm_num at hbig
    · intro _
      rw [h63, hlen]
      refine ⟨by omega, by omega, List.take_left _ _,
        by rw [List.take_left]; exact Nat.ofDigits_digits 256 e.natAbs⟩
  · rw [if_neg hbig]
    by_cases hz : e.natAbs ≠ 0
    · rw [if_pos hz]
      have hv : e.natAbs + EXPONENT_OFFSET < 64 := by
        rw [EXPONENT_OFFSET]
        rw [MAX_SMALL_EXPONENT] at hbig
        omega
      refine ⟨genFirstByteBase σ e + (e.natAbs + EXPONENT_OFFSET),
        (rleTokens ds).foldl (fun a t => convert t RADIX a 0x100 0) [0],
        rfl, ?_, ?_, ?_, ?_, ?_⟩
      · rw [NEG_SIGN_BIT]; exact genFB_and128 σ e _ hv
      · rw [NEG_EXPONENT_SIGN_BIT]; exact genFB_and64 σ e _ hv
      · intro h1 h2
        have h63 : (genFirstByteBase σ e + (e.natAbs + EXPONENT_OFFSET))
            &&& SIX_LSB_MASK = e.natAbs + EXPONENT_OFFSET := by
          rw [SIX_LSB_MASK]; exact genFB_and63 σ e _ hv
        rw [h63]
        refine ⟨rfl, ?_, ?_⟩ <;>
          · rw [MAX_SMALL_EXPONENT] at h2
            rw [EXPONENT_OFFSET]
            omega
      · intro h0
        exfalso
        rw [h0] at hz
        norm_num at hz
      · intro hc
        exact absurd hc hbig
    · rw [if_neg hz]
      have hz0 : e.natAbs = 0 := not_not.mp hz
      refine ⟨genFirstByteBase σ e,
        (rleTokens ds).foldl (fun a t => convert t RADIX a 0x100 0) [0],
        rfl, ?_, ?_, ?_, ?_, ?_⟩
      · rw [NEG_SIGN_BIT]
        simpa using genFB_and128 σ e 0 (by norm_num)
      · rw [NEG_EXPONENT_SIGN_BIT]
        simpa using genFB_and64 σ e 0 (by norm_num)
      · intro h1 _
        exfalso
        omega
      · intro _
        rw [SIX_LSB_MASK]
        simpa using genFB_and63 σ e 0 (by norm_num)
      · intro hc
        exfalso
        rw [MAX_SMALL_EXPONENT] at hc
        omega

theorem claim_C4_header_witness :
    ∃ fb rest, toArrayBuffer ⟨some 1, some 100, some [123, 456]⟩ = fb :: rest ∧
      fb &&& NEG_SIGN_BIT = (if (1 : Int) < 0 then NEG_SIGN_BIT else 0) ∧
      fb &&& NEG_EXPONENT_SIGN_BIT
        = (if (100 : Int) < 0 then NEG_EXPONENT_SIGN_BIT else 0) ∧
      (1 ≤ (100 : Int).natAbs → (100 : Int).natAbs ≤ MAX_SMALL_EXPONENT →
        fb &&& SIX_LSB_MASK = (100 : Int).natAbs + EXPONENT_OFFSET ∧
        EXPONENT_OFFSET + 1 ≤ fb &&& SIX_LSB_MASK ∧ fb &&& SIX_LSB_MASK ≤ 37) ∧
      ((100 : Int) = 0 → fb &&& SIX_LSB_MASK = 0) ∧
      (MAX_SMALL_EXPONENT < (100 : Int).natAbs →
        1 ≤ fb &&& SIX_LSB_MASK ∧ fb &&& SIX_LSB_MASK ≤ 7 ∧
        rest.take (fb &&& SIX_LSB_MASK) = Nat.digits 256 (100 : Int).natAbs ∧
        Nat.ofDigits 256 (rest.take (fb &&& SIX_LSB_MASK)) = (100 : Int).natAbs) :=
  claim_C4_header 1 100 [123, 456] (by decide) (by norm_num)

/-- Round trip for a positive finite triple with a short limb array,
specialised to the default host exponent range. -/
theorem roundtrip_short (e : Int) (ds : List Nat)
    (he : -(9 * 10 ^ 15) ≤ e ∧ e ≤ 9 * 10 ^ 15)
    (hne : ds ≠ []) (hlt : ∀ x ∈ ds, x < BASE)
    (hh : ds.headD 0 ≠ 0 ∨ ds = [0]) (h0 : ds = [0] → e = 0)
    (hshort : ds.length < RADIX) :
    fromArrayBuffer (9 * 10 ^ 15) (-(9 * 10 ^ 15))
        (toArrayBuffer ⟨some 1, some e, some ds⟩)
      = toResult ⟨some 1, some e, some ds⟩ :=
  (roundtrip (-(9 * 10 ^ 15)) (9 * 10 ^ 15) (by norm_num) (by norm_num)
    ⟨some 1, some e, some ds⟩
    (Or.inr (Or.inr ⟨1, e, ds, ⟨Or.inl rfl, he.1, he.2, hne, hlt, hh, h0⟩, rfl⟩))
    (by
      intro ds2 hds2
      injection hds2 with h
      subst h
      exact runsBounded_of_short _ hshort)).1

/-- C5: a run of at least 3 repeated all-zero / all-nine limbs becomes
a signifier followed by the run length (a count ≥ 3); any other limb
starts a literal token; tokenisation is inverted by the decode loop's
materialisation; concretely, a 3-run compresses, a 5-run of nines
compresses, 2-runs stay literal, and mantissas with a 3-run and with a
2-run both round-trip through decode. -/
theorem claim_C5_rle :
    (∀ x rest, (x = ALL_ZEROS ∨ x = ALL_NINES) → 3 ≤ countRun x rest + 1 →
       rleTokens (x :: rest)
         = (if x = ALL_ZEROS then ZEROS_SIGNIFIER else NINES_SIGNIFIER)
             :: (countRun x rest + 1) :: rleTokens (rest.drop (countRun x rest))) ∧
    (∀ x rest, ¬ ((x = ALL_ZEROS ∨ x = ALL_NINES) ∧ 3 ≤ countRun x rest + 1) →
       rleTokens (x :: rest) = x :: rleTokens rest) ∧
    (∀ ds : List Nat, (∀ x ∈ ds, x < BASE) → unrle (rleTokens ds) = ds) ∧
    rleTokens [1, 0, 0, 0, 5] = [1, ZEROS_SIGNIFIER, 3, 5] ∧
    rleTokens (List.replicate 5 ALL_NINES) = [NINES_SIGNIFIER, 5] ∧
    rleTokens [1, 0, 0, 5] = [1, 0, 0, 5] ∧
    rleTokens [ALL_NINES, ALL_NINES] = [ALL_NINES, ALL_NINES] ∧
    (fromArrayBuffer (9 * 10 ^ 15) (-(9 * 10 ^ 15))
        (toArrayBuffer ⟨some 1, some 0, some [1, 0, 0, 0, 5]⟩)
      = toResult ⟨some 1, some 0, some [1, 0, 0, 0, 5]⟩) ∧
    (fromArrayBuffer (9 * 10 ^ 15) (-(9 * 10 ^ 15))
        (toArrayBuffer ⟨some 1, some 34, some (List.replicate 5 ALL_NINES)⟩)
      = toResult ⟨some 1, some 34, some (List.replicate 5 ALL_NINES)⟩) ∧
    (fromArrayBuffer (9 * 10 ^ 15) (-(9 * 10 ^ 15))
        (toArrayBuffer ⟨some 1, some 0, some [1, 0, 0, 5]⟩)
      = toResult ⟨some 1, some 0, some [1, 0, 0, 5]⟩) := by
  have hrep : List.replicate 5 ALL_NINES
      = [ALL_NINES, ALL_NINES, ALL_NINES, ALL_NINES, ALL_NINES] := rfl
  refine ⟨?_, ?_, unrle_rleTokens, ?_, ?_, ?_, ?_, ?_, ?_, ?_⟩
  · intro x rest hsig h3
    rw [rleTokens, if_pos ⟨hsig, h3⟩]
    simp only [Nat.add_sub_cancel]
  · intro x rest hneg
    rw [rleTokens, if_neg hneg]
  · simp [rleTokens, countRun, ALL_ZEROS, ALL_NINES, ZEROS_SIGNIFIER,
      NINES_SIGNIFIER, BASE]
  · rw [hrep]
    simp [rleTokens, countRun, ALL_ZEROS, ALL_NINES, ZEROS_SIGNIFIER,
      NINES_SIGNIFIER, BASE]
  · simp [rleTokens, countRun, ALL_ZEROS, ALL_NINES, ZEROS_SIGNIFIER,
      NINES_SIGNIFIER, BASE]
  · simp [rleTokens, countRun, ALL_ZEROS, ALL_NINES, ZEROS_SIGNIFIER,
      NINES_SIGNIFIER, BASE]
  · exact roundtrip_short 0 [1, 0, 0, 0, 5] (by norm_num) (by decide)
      (by decide) (Or.inl (by decide)) (fun h => absurd h (by decide))
      (by decide)
  · exact roundtrip_short 34 (List.replicate 5 ALL_NINES) (by norm_num)
      (by decide) (by decide) (Or.inl (by decide))
      (fun h => absurd h (by decide)) (by decide)
  · exact roundtrip_short 0 [1, 0, 0, 5] (by norm_num) (by decide)
      (by decide) (Or.inl (by decide)) (fun _ => rfl) (by decide)

theorem claim_C5_rle_witness :
    unrle (rleTokens [7]) = [7] :=
  claim_C5_rle.2.2.1 [7] (by decide)

/-- The materialisation loop on the digit list `[ZEROS_SIGNIFIER]` — a
signifier at index 0 with no repeat count below it — never terminates:
the index jumps to `-1`, skipping the only exit test `i = 0`. -/
theorem materialize_bare_signifier :
    ∀ (f : Nat) (acc : List DigitV),
      materializeFuel [ZEROS_SIGNIFIER] f 1 acc = none := by
  intro f acc
  cases f with
  | zero => rfl
  | succ f =>
    rw [matStep_sigNone [ZEROS_SIGNIFIER] f 1 acc ZEROS_SIGNIFIER (by decide)
      (by decide) (Or.inl rfl) (by decide)]
    exact materializeFuel_neg _ f _ acc (by decide)

/-- C6: decoding is not total on byte strings.  The empty buffer does
decode to the null result, but the byte string `[0, 128, 150, 152]` —
whose mantissa bytes denote the single base-`RADIX` digit
`ZEROS_SIGNIFIER` — drives the materialisation loop's index from `1`
to `-1` past the only exit test, so the loop never terminates for any
fuel bound and the decode does not return. -/
theorem claim_C6_hang :
    (∀ maxE minE : Int, fromArrayBuffer maxE minE [] = .nullRes) ∧
    (∀ (f : Nat) (acc : List DigitV),
       materializeFuel [ZEROS_SIGNIFIER] f 1 acc = none) ∧
    (∀ maxE minE : Int, fromArrayBuffer maxE minE [0, 128, 150, 152] = .hang) := by
  have hraw : fromArrayBufferRaw [0, 128, 150, 152] = .hang := by
    simp [fromArrayBufferRaw, convert, carryAll, carryExpand, RADIX, BASE,
      NEG_SIGN_BIT, NEG_EXPONENT_SIGN_BIT, SIX_LSB_MASK, EXPONENT_OFFSET,
      NAN_BYTE, INFINITY_BYTE, NEG_INFINITY_BYTE, SMALL_INTEGER_BIT,
      readExpLoop, materializeFuel, jsGet, ZEROS_SIGNIFIER, NINES_SIGNIFIER,
      ALL_ZEROS, ALL_NINES, List.range_succ]
  refine ⟨fun _ _ => rfl, materialize_bare_signifier, fun maxE minE => ?_⟩
  rw [fromArrayBuffer, hraw]

end Serialize

namespace Evaluate

/-! ### The evaluator (`evaluate/index.js`)

`evaluator(Decimal)` is parametric in the host `Decimal` constructor: it
only uses construction from a string, the arithmetic / comparison
methods, `isZero`, and sign flipping.  The embedding is accordingly
parametrised by a `DecModel`, the interface of the host class. -/

/-- The operations of the host `Decimal` class used by the evaluator.
`fromStr` is `new Decimal(string)`; `neg` is the `r.s = -r.s` sign flip
of the unary minus handler. -/
structure DecModel (α : Type) where
  fromStr : String → α
  plus : α → α → α
  minus : α → α → α
  times : α → α → α
  div : α → α → α
  mod : α → α → α
  pow : α → α → α
  neg : α → α
  sqrt : α → α
  gt : α → α → Bool
  gte : α → α → Bool
  lt : α → α → Bool
  lte : α → α → Bool
  eq : α → α → Bool
  isZero : α → Bool

/-- A scope value: a Decimal (non-function values are converted by
`new Decimal(val)` at installation) or a function. -/
inductive SVal (α : Type) where
  | num (v : α)
  | fn (f : List α → α)

/-- A token of `TOKENS`: a literal Decimal, a variable or function
identifier (the latter when the scope holds a function at tokenisation
time), an operator of the `OPERATORS` table, or the closing
`{ val: 'end' }` marker. -/
inductive Tok (α : Type) where
  | num (v : α)
  | varT (name : String)
  | funT (name : String)
  | op (name : String)
  | endT

/-- The errors the evaluator throws.  `badValue` stands for the host
`TypeError` raised when a scope read yields `undefined` or a function
where a Decimal is needed (only reachable through a stale tokenizer);
`fuel` is the model's bound on the Pratt loop and is never reached by
any run appearing in the theorems below. -/
inductive EvalErr where
  | unexpectedSym (s : String)
  | expectedLParen
  | expectedRParen
  | trailing
  | unknownSymbol (c : Char)
  | invalidIdentifier (id : String)
  | invalidScope
  | noExpression
  | mustBeFunction (id : String)
  | mustNotBeFunction (id : String)
  | notInScope (id : String)
  | invalidExpression
  | badValue (id : String)
  | fuel
deriving DecidableEq

/-- The evaluator's persistent state between calls: the identifier
alternatives compiled into `TOKENIZER` (longest first; `[]` is the
default tokenizer), the stored `TOKENS` (`none` is the JavaScript
`null`), and `SCOPE` as an insertion-ordered association list. -/
structure EvalState (α : Type) where
  ids : List String
  toks : Option (List (Tok α))
  scope : List (String × SVal α)

/-- The `expression` argument: a string, an object (a re-binding map),
or any other value (`undefined`, `null`, a number, a function, …). -/
inductive ExprArg (α : Type) where
  | str (s : String)
  | obj (o : List (String × SVal α))
  | other

/-- The `scope` argument: `undefined`, an object, or an invalid value
(`null` or a non-object). -/
inductive ScopeArg (α : Type) where
  | undef
  | obj (o : List (String × SVal α))
  | invalid

/-! ### Character classes and string helpers -/

/-- The whitespace skipped by the tokenizer and by `trim` (the ASCII
part of the JavaScript `\s`). -/
def isSpaceC (c : Char) : Bool :=
  c == ' ' || c == '\t' || c == '\n' || c == '\r' || c == '\x0b' || c == '\x0c'

/-- `String.prototype.trim`, on the character list of the string. -/
def jsTrim (cs : List Char) : List Char :=
  ((cs.dropWhile isSpaceC).reverse.dropWhile isSpaceC).reverse

/-- The regular expression class `\w`. -/
def isWordC (c : Char) : Bool := c.isAlpha || c.isDigit || c == '_'

/-- The Unicode Greek and Coptic range `Ͱ`–`Ͽ`. -/
def isGreekC (c : Char) : Bool := 0x370 ≤ c.toNat && c.toNat ≤ 0x3FF

/-- `expression.replace(/\*\*/g, '^')`. -/
def starsToCaret : List Char → List Char
  | '*' :: '*' :: rest => '^' :: starsToCaret rest
  | c :: rest => c :: starsToCaret rest
  | [] => []

/-- The number alternative
`\d+(?:\.\d+)?(?:[eE][+-]?\d+)?` of the tokenizer: the matched
characters and the rest (the optional groups backtrack when their
digits are missing). -/
def takeNum (cs : List Char) : List Char × List Char :=
  let p1 := cs.span Char.isDigit
  let p2 :=
    match p1.2 with
    | '.' :: r =>
      let d := r.span Char.isDigit
      if d.1.isEmpty then (([] : List Char), p1.2) else ('.' :: d.1, d.2)
    | _ => (([] : List Char), p1.2)
  let p3 :=
    match p2.2 with
    | c :: r =>
      if c == 'e' || c == 'E' then
        match r with
        | s :: r2 =>
          if s == '+' || s == '-' then
            let d := r2.span Char.isDigit
            if d.1.isEmpty then (([] : List Char), p2.2) else (c :: s :: d.1, d.2)
          else
            let d := r.span Char.isDigit
            if d.1.isEmpty then (([] : List Char), p2.2) else (c :: d.1, d.2)
        | [] => (([] : List Char), p2.2)
      else (([] : List Char), p2.2)
    | [] => (([] : List Char), p2.2)
  (p1.1 ++ p2.1 ++ p3.1, p3.2)

/-- The identifier alternatives of `TOKENIZER`: try each scope
identifier, in the given (longest-first) order, as a literal match at
the current position. -/
def matchIds (ids : List String) (cs : List Char) : Option (String × List Char) :=
  match ids with
  | [] => none
  | id :: rest =>
    if id.data.isPrefixOf cs then some (id, cs.drop id.data.length)
    else matchIds rest cs

/-- `SCOPE[id]` (`hasOwnProperty` lookup on the association list). -/
def lookupS {α : Type} : List (String × SVal α) → String → Option (SVal α)
  | [], _ => none
  | (k, v) :: rest, id => if k = id then some v else lookupS rest id

/-- `SCOPE[id] = val`: in-place update keeping insertion order, adding
at the end when the key is new. -/
def setKey {α : Type} : List (String × SVal α) → String → SVal α → List (String × SVal α)
  | [], k, v => [(k, v)]
  | (k2, v2) :: rest, k, v =>
    if k2 = k then (k, v) :: rest else (k2, v2) :: setKey rest k v

/-- `VALID_IDENTIFIER`:
`/^[a-zA-Z_$Ͱ-Ͽ][\wͰ-Ͽ$]*$/`. -/
def validIdent (s : String) : Bool :=
  match s.data with
  | [] => false
  | c :: rest =>
    (c.isAlpha || c == '_' || c == '$' || isGreekC c) &&
    rest.all (fun d => isWordC d || isGreekC d || d == '$')

/-- Stable insertion keeping longer strings first
(`identifiers.sort(longestFirst)`). -/
def insertByLen (x : String) : List String → List String
  | [] => [x]
  | y :: ys => if y.length < x.length then x :: y :: ys else y :: insertByLen x ys

def sortLongest (l : List String) : List String := l.foldr insertByLen []

/-- The scope-installation loop: `SCOPE = {}` then one entry at a
time, each validated by `VALID_IDENTIFIER`; an invalid identifier
stops the loop, leaving the partially installed scope and the
offending identifier.  (`new Decimal(val)` on a non-function value is
the identity in the model, whose values already live in `α`.) -/
def installLoop {α : Type} :
    List (String × SVal α) → List (String × SVal α) →
      List (String × SVal α) × Option String
  | [], acc => (acc, none)
  | (id, v) :: rest, acc =>
    if validIdent id then installLoop rest (setKey acc id v)
    else (acc, some id)

/-- The re-binding loop (object argument with no scope argument): each
entry must name an existing key and match its function-ness; a failing
entry stops the loop with the partially updated scope (the source
mutates `SCOPE` in place). -/
def rebindLoop {α : Type} :
    List (String × SVal α) → List (String × SVal α) →
      List (String × SVal α) × Option EvalErr
  | [], sc => (sc, none)
  | (id, v) :: rest, sc =>
    match lookupS sc id with
    | some (.fn _) =>
      match v with
      | .fn g => rebindLoop rest (setKey sc id (.fn g))
      | .num _ => (sc, some (.mustBeFunction id))
    | some (.num _) =>
      match v with
      | .fn _ => (sc, some (.mustNotBeFunction id))
      | .num w => rebindLoop rest (setKey sc id (.num w))
    | none => (sc, some (.notInScope id))

/-! ### The tokenizer -/

/-- Capture group 4, the lookahead deciding implicit multiplication:
`(?=([\w($√Ͱ-Ͽ]|!(?!=))?)`. -/
def lookStar (cs : List Char) : Bool :=
  match cs with
  | [] => false
  | '!' :: rest =>
    match rest with
    | '=' :: _ => false
    | _ => true
  | c :: _ => isWordC c || c == '(' || c == '$' || c == '√' || isGreekC c

/-- The single-character operator class `[-+*\/(^%><!√,]`. -/
def singleOpC (c : Char) : Bool :=
  c == '-' || c == '+' || c == '*' || c == '/' || c == '(' || c == '^' ||
  c == '%' || c == '>' || c == '<' || c == '!' || c == '√' || c == ','

/-- Capture group 5, `[!<>=]=|[-+*\/(^%><!√,]|&&|\|\|`, tried in
the regular expression's alternation order. -/
def opScan (cs : List Char) : Option (String × List Char) :=
  match cs with
  | [] => none
  | c :: rest =>
    if (c == '!' || c == '<' || c == '>' || c == '=') &&
        (match rest with | '=' :: _ => true | _ => false) then
      some (String.mk [c, '='], rest.drop 1)
    else if singleOpC c then some (String.mk [c], rest)
    else
      match cs with
      | '&' :: '&' :: r => some ("&&", r)
      | '|' :: '|' :: r => some ("||", r)
      | _ => none

/-- The `while ((match = TOKENIZER.exec(expression)))` loop: skip
whitespace; at each position match, in alternation order, a number, a
scope identifier, `)`, an operator — or fail on any other non-space
character (the `\S` alternative), which in the source sets
`TOKENS = null` before throwing.  `match[4]` (the lookahead) appends
the implicit `*`, cancelled for function identifiers.  The fuel is the
number of remaining characters plus one; every step consumes at least
one character, so the fuel never runs out. -/
def tokenizeFuel {α : Type} (m : DecModel α) (scope : List (String × SVal α))
    (ids : List String) :
    Nat → List Char → List (Tok α) → Except Char (List (Tok α))
  | 0, _, acc => .ok acc
  | _ + 1, [], acc => .ok acc
  | f + 1, c :: cs, acc =>
    if isSpaceC c then tokenizeFuel m scope ids f cs acc
    else if c.isDigit then
      match takeNum (c :: cs) with
      | (numCs, rest) =>
        let tk := Tok.num (m.fromStr (String.mk numCs))
        if lookStar rest then tokenizeFuel m scope ids f rest (acc ++ [tk, Tok.op "*"])
        else tokenizeFuel m scope ids f rest (acc ++ [tk])
    else
      match matchIds ids (c :: cs) with
      | some (id, rest) =>
        match lookupS scope id with
        | some (.fn _) => tokenizeFuel m scope ids f rest (acc ++ [Tok.funT id])
        | _ =>
          if lookStar rest then
            tokenizeFuel m scope ids f rest (acc ++ [Tok.varT id, Tok.op "*"])
          else tokenizeFuel m scope ids f rest (acc ++ [Tok.varT id])
      | none =>
        if c == ')' then
          if lookStar cs then tokenizeFuel m scope ids f cs (acc ++ [Tok.op ")", Tok.op "*"])
          else tokenizeFuel m scope ids f cs (acc ++ [Tok.op ")"])
        else
          match opScan (c :: cs) with
          | some (s, rest) => tokenizeFuel m scope ids f rest (acc ++ [Tok.op s])
          | none => .error c

/-! ### The `OPERATORS` table and the Pratt evaluator -/

/-- `lbp` of each operator of the `OPERATORS` table (`0` for the
prefix-only entries `√ ! ( ) ,`). -/
def opLbp (s : String) : Nat :=
  if s = "^" then 80
  else if s = "*" ∨ s = "/" ∨ s = "%" then 60
  else if s = "+" ∨ s = "-" then 50
  else if s = ">" ∨ s = ">=" ∨ s = "<" ∨ s = "<=" then 40
  else if s = "==" ∨ s = "!=" then 30
  else if s = "&&" then 20
  else if s = "||" then 10
  else 0

/-- The binding power each infix handler passes to `evaluate` for its
right operand: `79` for the right-associative `^`, otherwise the
operator's own `lbp`. -/
def rhsBp (s : String) : Nat := if s = "^" then 79 else opLbp s

/-- The value each infix handler returns from its operands, with the
right operand already evaluated: the arithmetic methods; the
comparisons wrapped into `new Decimal(Number(...))`;
`!=` as the negated `eq`; and `&&` / `||` choosing one operand by
`left.isZero()`. -/
def applyOp {α : Type} (m : DecModel α) (s : String) (l r : α) : α :=
  if s = "^" then m.pow l r
  else if s = "*" then m.times l r
  else if s = "/" then m.div l r
  else if s = "%" then m.mod l r
  else if s = "+" then m.plus l r
  else if s = "-" then m.minus l r
  else if s = ">" then m.fromStr (if m.gt l r then "1" else "0")
  else if s = ">=" then m.fromStr (if m.gte l r then "1" else "0")
  else if s = "<" then m.fromStr (if m.lt l r then "1" else "0")
  else if s = "<=" then m.fromStr (if m.lte l r then "1" else "0")
  else if s = "==" then m.fromStr (if m.eq l r then "1" else "0")
  else if s = "!=" then m.fromStr (if m.eq l r then "0" else "1")
  else if s = "&&" then (if m.isZero l then l else r)
  else if s = "||" then (if m.isZero l then r else l)
  else l

/-- `TOKENS[i]`.  Every stored token list ends with the `end` token
and the index never passes it, so the default is never read. -/
def getTok {α : Type} (toks : List (Tok α)) (i : Nat) : Tok α := toks.getD i .endT

/-- `token.val === s` for an operator name `s` (the `val` of a number
token is a Decimal and compares unequal to any operator string). -/
def isOp {α : Type} (t : Tok α) (s : String) : Bool :=
  match t with
  | .op s2 => s2 == s
  | _ => false

/-- The evaluation modes of the Pratt evaluator: `expr rbp idx` is
`evaluate(rbp)` with the token cursor at `idx`; `loop rbp left idx` is
its `while (rbp < token.lbp)` loop; `args f acc idx` is the argument
loop of `funcPrefix`. -/
inductive PMode (α : Type) where
  | expr (rbp : Nat) (idx : Nat)
  | loop (rbp : Nat) (left : α) (idx : Nat)
  | args (f : List α → α) (acc : List α) (idx : Nat)

/-- `evaluate(rbp)` from the source, with the global `index`/`token`
pair made explicit (the cursor is the returned index) and the mutual
recursion through the prefix and infix handlers folded into the three
`PMode`s.  The fuel only bounds the recursion depth; each theorem below
runs with visibly sufficient fuel. -/
def evaluate {α : Type} (m : DecModel α) (scope : List (String × SVal α))
    (toks : List (Tok α)) :
    Nat → PMode α → Except EvalErr (α × Nat)
  | 0, _ => .error .fuel
  | fuel + 1, .expr rbp idx =>
    match getTok toks idx with
    | .endT => .error (.unexpectedSym "end")
    | .num v => evaluate m scope toks fuel (.loop rbp v (idx + 1))
    | .varT n =>
      match lookupS scope n with
      | some (.num v) => evaluate m scope toks fuel (.loop rbp v (idx + 1))
      | _ => .error (.badValue n)
    | .funT n =>
      match lookupS scope n with
      | some (.fn f) =>
        if isOp (getTok toks (idx + 1)) "(" then
          if isOp (getTok toks (idx + 2)) ")" then
            evaluate m scope toks fuel (.loop rbp (f []) (idx + 3))
          else
            match evaluate m scope toks fuel (.args f [] (idx + 2)) with
            | .ok (v, idx2) => evaluate m scope toks fuel (.loop rbp v idx2)
            | .error e => .error e
        else .error .expectedLParen
      | _ => .error (.badValue n)
    | .op s =>
      if s = "+" then
        match evaluate m scope toks fuel (.expr 70 (idx + 1)) with
        | .ok (v, idx2) => evaluate m scope toks fuel (.loop rbp v idx2)
        | .error e => .error e
      else if s = "-" then
        match evaluate m scope toks fuel (.expr 70 (idx + 1)) with
        | .ok (v, idx2) => evaluate m scope toks fuel (.loop rbp (m.neg v) idx2)
        | .error e => .error e
      else if s = "√" then
        match evaluate m scope toks fuel (.expr 79 (idx + 1)) with
        | .ok (v, idx2) => evaluate m scope toks fuel (.loop rbp (m.sqrt v) idx2)
        | .error e => .error e
      else if s = "!" then
        match evaluate m scope toks fuel (.expr 70 (idx + 1)) with
        | .ok (v, idx2) =>
          evaluate m scope toks fuel
            (.loop rbp (m.fromStr (if m.isZero v then "1" else "0")) idx2)
        | .error e => .error e
      else if s = "(" then
        match evaluate m scope toks fuel (.expr 0 (idx + 1)) with
        | .ok (v, idx2) =>
          if isOp (getTok toks idx2) ")" then
            evaluate m scope toks fuel (.loop rbp v (idx2 + 1))
          else .error .expectedRParen
        | .error e => .error e
      else .error (.unexpectedSym s)
  | fuel + 1, .loop rbp left idx =>
    match getTok toks idx with
    | .op s =>
      if rbp < opLbp s then
        match evaluate m scope toks fuel (.expr (rhsBp s) (idx + 1)) with
        | .ok (r, idx2) => evaluate m scope toks fuel (.loop rbp (applyOp m s left r) idx2)
        | .error e => .error e
      else .ok (left, idx)
    | _ => .ok (left, idx)
  | fuel + 1, .args f acc idx =>
    match evaluate m scope toks fuel (.expr 0 idx) with
    | .ok (v, idx2) =>
      if isOp (getTok toks idx2) "," then
        evaluate m scope toks fuel (.args f (acc ++ [v]) (idx2 + 1))
      else if isOp (getTok toks idx2) ")" then .ok (f (acc ++ [v]), idx2 + 1)
      else .error .expectedRParen
    | .error e => .error e

/-- `index = 0; token = TOKENS[0]; result = new Decimal(evaluate(0));`
followed by the final end-token check. -/
def runTokens {α : Type} (m : DecModel α) (scope : List (String × SVal α))
    (toks : List (Tok α)) : Except EvalErr α :=
  match evaluate m scope toks (8 * (toks.length + 1)) (.expr 0 0) with
  | .error e => .error e
  | .ok (v, idx) =>
    match getTok toks idx with
    | .endT => .ok v
    | _ => .error .trailing

/-- Tokenize (after the `**` → `^` replacement) and evaluate: on a
lexical error the stored tokens become `null`; otherwise the new token
list (with the `end` marker) replaces the stored one, whatever the
evaluation outcome. -/
def tokenizeAndRun {α : Type} (m : DecModel α) (st : EvalState α) (s : String) :
    EvalState α × Except EvalErr α :=
  let cs := starsToCaret s.data
  match tokenizeFuel m st.scope st.ids (cs.length + 1) cs [] with
  | .error c => ({ st with toks := none }, .error (.unknownSymbol c))
  | .ok ts =>
    ({ st with toks := some (ts ++ [Tok.endT]) },
      runTokens m st.scope (ts ++ [Tok.endT]))

/-- The closure returned by `evaluator(Decimal)`: the full
argument-shape dispatch of `(expression, scope) => …`, returning the
updated persistent state together with the result or the thrown
error. -/
def evalCall {α : Type} (m : DecModel α) (st : EvalState α)
    (ex : ExprArg α) (sa : ScopeArg α) : EvalState α × Except EvalErr α :=
  match ex with
  | .str s =>
    if jsTrim s.data = [] then (st, .error .invalidExpression)
    else
      match sa with
      | .obj o =>
        match installLoop o [] with
        | (sc, some id) => ({ st with scope := sc }, .error (.invalidIdentifier id))
        | (sc, none) =>
          let ids := if sc.isEmpty then [] else sortLongest (sc.map Prod.fst)
          tokenizeAndRun m { ids := ids, toks := st.toks, scope := sc } s
      | .invalid => (st, .error .invalidScope)
      | .undef => tokenizeAndRun m st s
  | .obj o =>
    match sa with
    | .undef =>
      match st.toks with
      | none => (st, .error .noExpression)
      | some toks =>
        match rebindLoop o st.scope with
        | (sc, some e) => ({ st with scope := sc }, .error e)
        | (sc, none) => ({ st with scope := sc }, runTokens m sc toks)
    | _ => (st, .error .invalidExpression)
  | .other => (st, .error .invalidExpression)

/-! ### A concrete host model over `ℚ`

The host `Decimal` class lives outside this repository; for concrete
runs a rational-number stand-in suffices.  Only construction from the
numeral strings the tokenizer produces, exact arithmetic, comparisons
and `isZero` are exercised by the theorems below; `pow` with a
non-integer exponent and `sqrt` are inexact host externals and get
simple stand-ins here. -/

def digitsToNat (cs : List Char) : Nat :=
  cs.foldl (fun a c => 10 * a + (c.toNat - 48)) 0

/-- `new Decimal(string)` on the numeral strings of the tokenizer:
`digits`, optionally `.digits`, optionally `[eE][+-]?digits`. -/
def qFromStr (s : String) : ℚ :=
  let cs := s.data
  let p1 := cs.span Char.isDigit
  let p2 :=
    match p1.2 with
    | '.' :: r => r.span Char.isDigit
    | _ => (([] : List Char), p1.2)
  let ex : Int :=
    match p2.2 with
    | c :: r =>
      if c == 'e' || c == 'E' then
        match r with
        | '+' :: r2 => (digitsToNat (r2.takeWhile Char.isDigit) : Int)
        | '-' :: r2 => -(digitsToNat (r2.takeWhile Char.isDigit) : Int)
        | r2 => (digitsToNat (r2.takeWhile Char.isDigit) : Int)
      else 0
    | [] => 0
  ((digitsToNat (p1.1 ++ p2.1) : ℚ) / (10 : ℚ) ^ p2.1.length) * (10 : ℚ) ^ ex

/-- Truncation toward zero, for the `mod` of the host. -/
def qTrunc (q : ℚ) : Int := Int.div q.num (q.den : Int)

def QDec : DecModel ℚ where
  fromStr := qFromStr
  plus := fun a b => a + b
  minus := fun a b => a - b
  times := fun a b => a * b
  div := fun a b => a / b
  mod := fun a b => a - b * ((qTrunc (a / b) : Int) : ℚ)
  pow := fun a b => if b.den = 1 then a ^ b.num else 0
  neg := fun a => -a
  sqrt := fun a => a
  gt := fun a b => decide (b < a)
  gte := fun a b => decide (b ≤ a)
  lt := fun a b => decide (a < b)
  lte := fun a b => decide (a ≤ b)
  eq := fun a b => decide (a = b)
  isZero := fun a => decide (a = 0)

theorem qFromStr_zero : qFromStr "0" = 0 := by
  have h : qFromStr "0"
      = ((0 : Nat) : ℚ) / (10 : ℚ) ^ (0 : Nat) * (10 : ℚ) ^ (0 : Int) := rfl
  rw [h]
  norm_num

theorem qFromStr_one : qFromStr "1" = 1 := by
  have h : qFromStr "1"
      = ((1 : Nat) : ℚ) / (10 : ℚ) ^ (0 : Nat) * (10 : ℚ) ^ (0 : Int) := rfl
  rw [h]
  norm_num

theorem qFromStr_two : qFromStr "2" = 2 := by
  have h : qFromStr "2"
      = ((2 : Nat) : ℚ) / (10 : ℚ) ^ (0 : Nat) * (10 : ℚ) ^ (0 : Int) := rfl
  rw [h]
  norm_num

theorem qFromStr_three : qFromStr "3" = 3 := by
  have h : qFromStr "3"
      = ((3 : Nat) : ℚ) / (10 : ℚ) ^ (0 : Nat) * (10 : ℚ) ^ (0 : Int) := rfl
  rw [h]
  norm_num

theorem qFromStr_four : qFromStr "4" = 4 := by
  have h : qFromStr "4"
      = ((4 : Nat) : ℚ) / (10 : ℚ) ^ (0 : Nat) * (10 : ℚ) ^ (0 : Int) := rfl
  rw [h]
  norm_num

/-! ### Claims C7–C10 -/

/-- C7 (amended): the evaluator's error discipline on its persistent
state.  Argument-shape errors (non-string/non-object expression, blank
string, object expression with a scope argument, invalid scope value,
re-evaluation with no stored tokens) leave the state untouched; a
failed scope installation keeps the partially installed scope; a
lexical error erases the stored token list (`TOKENS = null`) rather
than leaving it untouched; a successfully tokenized expression
replaces the stored token list whatever the evaluation outcome; and a
failed re-binding keeps the partially updated scope. -/
theorem claim_C7_state (α : Type) (m : DecModel α) (st : EvalState α) :
    (∀ sa, evalCall m st .other sa = (st, .error .invalidExpression)) ∧
    (∀ s sa, jsTrim s.data = [] →
       evalCall m st (.str s) sa = (st, .error .invalidExpression)) ∧
    (∀ o sa, sa ≠ ScopeArg.undef →
       evalCall m st (.obj o) sa = (st, .error .invalidExpression)) ∧
    (∀ s, jsTrim s.data ≠ [] →
       evalCall m st (.str s) .invalid = (st, .error .invalidScope)) ∧
    (∀ o, st.toks = none →
       evalCall m st (.obj o) .undef = (st, .error .noExpression)) ∧
    (∀ s o sc id, jsTrim s.data ≠ [] → installLoop o [] = (sc, some id) →
       evalCall m st (.str s) (.obj o)
         = ({ st with scope := sc }, .error (.invalidIdentifier id))) ∧
    (∀ s c, jsTrim s.data ≠ [] →
       tokenizeFuel m st.scope st.ids ((starsToCaret s.data).length + 1)
           (starsToCaret s.data) [] = .error c →
       evalCall m st (.str s) .undef
         = ({ st with toks := none }, .error (.unknownSymbol c))) ∧
    (∀ s ts, jsTrim s.data ≠ [] →
       tokenizeFuel m st.scope st.ids ((starsToCaret s.data).length + 1)
           (starsToCaret s.data) [] = .ok ts →
       evalCall m st (.str s) .undef
         = ({ st with toks := some (ts ++ [Tok.endT]) },
            runTokens m st.scope (ts ++ [Tok.endT]))) ∧
    (∀ o toks sc e, st.toks = some toks → rebindLoop o st.scope = (sc, some e) →
       evalCall m st (.obj o) .undef = ({ st with scope := sc }, .error e)) := by
  refine ⟨fun sa => rfl, ?_, ?_, ?_, ?_, ?_, ?_, ?_, ?_⟩
  · intro s sa hs
    simp only [evalCall]
    rw [if_pos hs]
  · intro o sa h
    cases sa with
    | undef => exact absurd rfl h
    | obj o2 => rfl
    | invalid => rfl
  · intro s h
    simp only [evalCall]
    rw [if_neg h]
  · intro o h
    simp only [evalCall, h]
  · intro s o sc id hs hin
    simp only [evalCall]
    rw [if_neg hs, hin]
  · intro s c hs htok
    simp only [evalCall]
    rw [if_neg hs]
    simp only [tokenizeAndRun]
    rw [htok]
  · intro s ts hs htok
    simp only [evalCall]
    rw [if_neg hs]
    simp only [tokenizeAndRun]
    rw [htok]
  · intro o toks sc e htoks hreb
    simp only [evalCall, htoks, hreb]

theorem claim_C7_state_witness :
    evalCall QDec ⟨[], none, []⟩ (.str " ") .undef
      = (⟨[], none, []⟩, .error .invalidExpression) :=
  (claim_C7_state ℚ QDec ⟨[], none, []⟩).2.1 " " .undef rfl

/-- C7 counterexample: after a successful evaluation of `"1"` the
stored token list is non-null; the lexical error raised by `"@"` then
erases it (`TOKENS = null`), so this error does not leave the stored
token list untouched from its prior successful state. -/
theorem claim_C7_counterexample :
    ((evalCall QDec ⟨[], none, []⟩ (.str "1") .undef).2 = .ok (qFromStr "1")) ∧
    ((evalCall QDec ⟨[], none, []⟩ (.str "1") .undef).1.toks
      = some [Tok.num (qFromStr "1"), Tok.endT]) ∧
    ((evalCall QDec (evalCall QDec ⟨[], none, []⟩ (.str "1") .undef).1
        (.str "@") .undef).2 = .error (.unknownSymbol '@')) ∧
    ((evalCall QDec (evalCall QDec ⟨[], none, []⟩ (.str "1") .undef).1
        (.str "@") .undef).1.toks = none) :=
  ⟨rfl, rfl, rfl, rfl⟩

/-- C8: each comparison infix returns the host decimal `1` or `0`
built from its boolean; `&&` returns its left operand exactly when the
left operand is zero and otherwise the right; `||` returns the right
operand exactly when the left is zero and otherwise the left; both
always evaluate the right-hand side first (no short-circuit), so a
malformed right operand raises an error even when the left operand
already determines the choice; and concretely `2 > 3` evaluates to
`0`, `2 && 3` to `3` and `0 || 4` to `4`. -/
theorem claim_C8_ops :
    (∀ (α : Type) (m : DecModel α) (l r : α),
       applyOp m ">" l r = m.fromStr (if m.gt l r then "1" else "0") ∧
       applyOp m ">=" l r = m.fromStr (if m.gte l r then "1" else "0") ∧
       applyOp m "<" l r = m.fromStr (if m.lt l r then "1" else "0") ∧
       applyOp m "<=" l r = m.fromStr (if m.lte l r then "1" else "0") ∧
       applyOp m "==" l r = m.fromStr (if m.eq l r then "1" else "0") ∧
       applyOp m "!=" l r = m.fromStr (if m.eq l r then "0" else "1") ∧
       applyOp m "&&" l r = (if m.isZero l then l else r) ∧
       applyOp m "||" l r = (if m.isZero l then r else l)) ∧
    (evalCall QDec ⟨[], none, []⟩ (.str "2 > 3") .undef).2 = .ok 0 ∧
    (evalCall QDec ⟨[], none, []⟩ (.str "2 && 3") .undef).2 = .ok 3 ∧
    (evalCall QDec ⟨[], none, []⟩ (.str "0 || 4") .undef).2 = .ok 4 ∧
    (evalCall QDec ⟨[], none, []⟩ (.str "0 && +") .undef).2
      = .error (.unexpectedSym "end") ∧
    (evalCall QDec ⟨[], none, []⟩ (.str "1 || +") .undef).2
      = .error (.unexpectedSym "end") := by
  refine ⟨fun α m l r => ⟨rfl, rfl, rfl, rfl, rfl, rfl, rfl, rfl⟩,
    ?_, ?_, ?_, rfl, rfl⟩
  · have h : (evalCall QDec ⟨[], none, []⟩ (.str "2 > 3") .undef).2
        = .ok (qFromStr (if decide ((qFromStr "3" : ℚ) < qFromStr "2")
            then "1" else "0")) := rfl
    rw [h, qFromStr_two, qFromStr_three]
    have hlt : ¬ ((3 : ℚ) < 2) := by norm_num
    rw [decide_eq_false hlt]
    simp [qFromStr_zero]
  · have h : (evalCall QDec ⟨[], none, []⟩ (.str "2 && 3") .undef).2
        = .ok (if decide ((qFromStr "2" : ℚ) = 0) then qFromStr "2"
            else qFromStr "3") := rfl
    rw [h, qFromStr_two, qFromStr_three]
    have hz : ¬ ((2 : ℚ) = 0) := by norm_num
    rw [decide_eq_false hz]
    simp
  · have h : (evalCall QDec ⟨[], none, []⟩ (.str "0 || 4") .undef).2
        = .ok (if decide ((qFromStr "0" : ℚ) = 0) then qFromStr "4"
            else qFromStr "0") := rfl
    rw [h, qFromStr_zero, qFromStr_four]
    rw [decide_eq_true (show (0 : ℚ) = 0 from rfl)]
    simp

/-- C9: with a scope binding the single variable `x`, the expressions
`2x`, `2*x` and `(2)(x)` evaluate to the same result, and `1/2x`
evaluates to the same result as `(1/2)*x` — the implicitly inserted
`*` binds at the multiplicative level and associates left. -/
theorem claim_C9_implicit_mul :
    ∀ (α : Type) (m : DecModel α) (xv : α),
      ((evalCall m ⟨["x"], none, [("x", SVal.num xv)]⟩ (.str "2x") .undef).2
        = (evalCall m ⟨["x"], none, [("x", SVal.num xv)]⟩ (.str "2*x") .undef).2) ∧
      ((evalCall m ⟨["x"], none, [("x", SVal.num xv)]⟩ (.str "(2)(x)") .undef).2
        = (evalCall m ⟨["x"], none, [("x", SVal.num xv)]⟩ (.str "2*x") .undef).2) ∧
      ((evalCall m ⟨["x"], none, [("x", SVal.num xv)]⟩ (.str "1/2x") .undef).2
        = (evalCall m ⟨["x"], none, [("x", SVal.num xv)]⟩ (.str "(1/2)*x") .undef).2) :=
  fun α m xv => ⟨rfl, rfl, rfl⟩

/-- C10: a string expression that is empty or all whitespace raises
the invalid-expression type error whatever the scope argument, leaving
the state untouched — it is never tokenized and never reaches the
re-binding branch. -/
theorem claim_C10_blank (α : Type) (m : DecModel α) (st : EvalState α)
    (s : String) (hs : jsTrim s.data = []) (sa : ScopeArg α) :
    evalCall m st (.str s) sa = (st, .error .invalidExpression) := by
  simp only [evalCall]
  rw [if_pos hs]

theorem claim_C10_blank_witness :
    evalCall QDec ⟨[], none, []⟩ (.str "  ") .undef
      = (⟨[], none, []⟩, .error .invalidExpression) :=
  claim_C10_blank ℚ QDec ⟨[], none, []⟩ "  " rfl .undef

end Evaluate
